import Mathlib

/-- The NUL character, the C string terminator and the `'\0'` sentinel of
the `head_dependent` field. -/
def nulChar : Char := Char.ofNat 0

/-- C `islower` in the C locale: `'a' <= c && c <= 'z'`. -/
def c_islower (c : Char) : Bool := 'a' ≤ c && c ≤ 'z'

/-- C `isupper` in the C locale: `'A' <= c && c <= 'Z'`. -/
def c_isupper (c : Char) : Bool := 'A' ≤ c && c ≤ 'Z'

/-- `*s` for a C string modelled as a list: the head character, or NUL at
the end of the string. -/
def headChar : List Char → Char
  | [] => nulChar
  | c :: _ => c

/-- The initial marker consumption of `easy_match` (connectors.h lines
170-172): if the first character is lower case it is remembered and the
pointer advances past it. -/
def stripMarker : List Char → Option Char × List Char
  | [] => (none, [])
  | c :: rest => if c_islower c then (some c, rest) else (none, c :: rest)

/-- The second loop of `easy_match` (connectors.h lines 183-193): walk
the lowercase suffixes while BOTH sides still have characters; a `'*'`
on either side or equal characters continues, anything else fails;
running out of characters on either side succeeds. -/
def lcLoop : List Char → List Char → Bool
  | c :: s, d :: t => if c = '*' || d = '*' || c = d then lcLoop s t else false
  | _, _ => true

/-- The first loop of `easy_match` (connectors.h lines 176-181): walk
while either side's current character is upper case; unequal characters
fail (including a letter compared against the NUL at the end of the
shorter string); when neither side is at an upper-case character,
control falls through to the lowercase-suffix loop. -/
def ucLoop : List Char → List Char → Bool
  | c :: s, d :: t =>
      if c_isupper c || c_isupper d then
        if c = d then ucLoop s t else false
      else lcLoop (c :: s) (d :: t)
  | [], t => if c_isupper (headChar t) then false else true
  | s, [] => if c_isupper (headChar s) then false else true

/-- `easy_match` (connectors.h lines 168-194): the raw-string form of the
connector match predicate.  Optional leading lower-case markers are
stripped; two present and equal markers are incompatible; then the
upper-case loop and the lower-case loop run. -/
def easy_match (s t : List Char) : Bool :=
  let ps := stripMarker s
  let pt := stripMarker t
  match ps.1, pt.1 with
  | some a, some b => if a = b then false else ucLoop ps.2 pt.2
  | _, _ => ucLoop ps.2 pt.2

/-- `condesc_t` (connectors.h lines 43-68).  `uc_num` stands for the
anonymous union of `uc_hash` and `uc_num` (one 16-bit field holding the
upper-case hash during interning and the dense upper-case group id after
`sort_condesc_by_uc_constring`).  `head_dependent` is a `char` holding
`'h'`, `'d'`, or NUL. -/
structure condesc_t where
  lc_letters : Nat
  lc_mask : Nat
  string : List Char
  str_hash : Nat
  uc_num : Nat
  length_limit : Nat
  head_dependent : Char
  uc_length : Nat
  uc_start : Nat
deriving DecidableEq, Repr

/-- `lc_easy_match` (connectors.h lines 201-209): compare the lower-case
and head/dependent parts of two connector descriptors. -/
def lc_easy_match (c1 c2 : condesc_t) : Bool :=
  if (c1.lc_letters ^^^ c2.lc_letters) &&& c1.lc_mask &&& c2.lc_mask ≠ 0 then false
  else if c1.head_dependent ≠ nulChar && c1.head_dependent = c2.head_dependent then false
  else true

/-- `easy_match_desc` (connectors.h lines 215-219): the descriptor form
of the match predicate; a shortcut equality on the upper-case ids, then
the lower-case comparison. -/
def easy_match_desc (c1 c2 : condesc_t) : Bool :=
  if c1.uc_num ≠ c2.uc_num then false else lc_easy_match c1 c2

/-- `string_hash` (connectors.h lines 221-233): the djb2 hash over an
`unsigned int` accumulator (32-bit wraparound). -/
def string_hash (s : List Char) : Nat :=
  s.foldl (fun i c => (i * 33 + c.toNat) % 2 ^ 32) 5381

/-- `connector_str_hash` (connectors.h lines 237-276): the Jenkins
one-at-a-time hash over a `uint32_t` accumulator. -/
def connector_str_hash (s : List Char) : Nat :=
  let i := s.foldl (fun i c =>
    let i1 := (i + c.toNat) % 2 ^ 32
    let i2 := (i1 + i1 * 2 ^ 10) % 2 ^ 32
    i2 ^^^ (i2 / 2 ^ 6)) 0
  let a := (i + i * 2 ^ 3) % 2 ^ 32
  let b := a ^^^ (a / 2 ^ 11)
  (b + b * 2 ^ 15) % 2 ^ 32

/-- One 7-bit slot of the packed lowercase signature: the character's
7-bit code for a concrete letter, 0 at a `'*'` wildcard. -/
def lcSlotVal (c : Char) : Nat := if c = '*' then 0 else c.toNat &&& 127

/-- One 7-bit slot of the packed lowercase mask: all-ones (the slot
carries a concrete letter constraint) or all-zeros (wildcard). -/
def lcSlotMask (c : Char) : Nat := if c = '*' then 0 else 127

/-- The packed lowercase (signature, mask) pair: suffix position `i`
occupies bits `7*i .. 7*i+6` (`LC_BITS = 7`, connectors.h lines 33-39);
mask bits are clear at wildcard positions and beyond the end of the
suffix. -/
def lcEncode : List Char → Nat × Nat
  | [] => (0, 0)
  | c :: rest =>
      let p := lcEncode rest
      (lcSlotVal c + 2 ^ 7 * p.1, lcSlotMask c + 2 ^ 7 * p.2)

/-- The upper-case core of a connector string: the maximal upper-case
run after the optional leading lower-case marker. -/
def ucCore (s : List Char) : List Char :=
  ((stripMarker s).2).takeWhile (fun c => c_isupper c)

/-- The lower-case suffix of a connector string: everything after the
upper-case core. -/
def lcSuffix (s : List Char) : List Char :=
  ((stripMarker s).2).dropWhile (fun c => c_isupper c)

/-- Modelled from the spec: the `head_dependent` value derived from the
optional leading lower-case marker (spec section 4.2: head for an
'h'-class marker, dependent for 'd'-class, none otherwise). -/
def hd_of_marker (m : Option Char) : Char :=
  if m = some 'h' then 'h' else if m = some 'd' then 'd' else nulChar

/-- Modelled from the spec: the body of `calculate_connector_info`
(declared at connectors.h line 235, defined in connectors.c, which is
not part of the sources here).  Following spec sections 4.2 and 4.3 it
parses the descriptor's string into an optional leading lower-case
marker (`'h'` gives head, `'d'` gives dependent, anything else none), a
maximal upper-case core (recorded by `uc_start`/`uc_length` and hashed
into the union field for the grouping phase), and a lower-case suffix
packed into `lc_letters`/`lc_mask`; it fails when the core is empty or
the suffix needs more than the 9 letters the 64-bit packed field
supports.  Failure is modelled as `none` (the C function returns
`false`). -/
def calculate_connector_info (d : condesc_t) : Option condesc_t :=
  let p := stripMarker d.string
  let core := p.2.takeWhile (fun c => c_isupper c)
  let suff := p.2.dropWhile (fun c => c_isupper c)
  if core.length = 0 then none
  else if 9 < suff.length then none
  else
    let e := lcEncode suff
    some { d with
      lc_letters := e.1
      lc_mask := e.2
      head_dependent := hd_of_marker p.1
      uc_start := if p.1.isSome then 1 else 0
      uc_length := core.length
      uc_num := string_hash core % 2 ^ 16
      length_limit := 0 }

/-- The freshly `malloc`ed and zeroed descriptor of `condesc_insert`
(connectors.h lines 336-339) just before `calculate_connector_info` runs:
only `str_hash` (truncated to the 16-bit `connector_hash_size` field)
and `string` are set. -/
def blank_condesc (s : List Char) (hash : Nat) : condesc_t :=
  { lc_letters := 0, lc_mask := 0, string := s, str_hash := hash % 2 ^ 16,
    uc_num := 0, length_limit := 0, head_dependent := nulChar,
    uc_length := 0, uc_start := 0 }

structure ConTable where
  hdesc : Nat → Option condesc_t
  size : Nat
  num_con : Nat

/-- The linear-probe loop of `condesc_find` (connectors.h lines 317-321):
from slot `i`, advance by `+1` masked by `size - 1` while the slot is
occupied by a descriptor whose interned string differs from `constring`
(`string_set_cmp` is canonical-string identity).  The C loop has no exit
besides finding an empty or matching slot; the `fuel` argument makes the
model total, with `none` standing for a loop that never exits. -/
def probe (ct : ConTable) (constring : List Char) : Nat → Nat → Option Nat
  | _, 0 => none
  | i, fuel + 1 =>
    match ct.hdesc i with
    | none => some i
    | some d =>
      if d.string = constring then some i
      else probe ct constring ((i + 1) &&& (ct.size - 1)) fuel

/-- `condesc_find` (connectors.h lines 313-324): start probing at
`hash & (size - 1)`; the returned slot index models the returned slot
pointer `&ct->hdesc[i]`.  `size` steps of fuel are enough to visit every
slot of the (power-of-two sized) table once. -/
def condesc_find (ct : ConTable) (constring : List Char) (hash : Nat) : Option Nat :=
  probe ct constring (hash &&& (ct.size - 1)) ct.size

/-- `condesc_table_alloc` (connectors.h lines 326-331): a zeroed slot
array of the given size. -/
def condesc_table_alloc (ct : ConTable) (size : Nat) : ConTable :=
  { ct with hdesc := (fun _ => none), size := size }

/-- `condesc_insert` (connectors.h lines 333-343): store a fresh
descriptor (string and 16-bit truncated hash already set) into slot `i`,
increment `num_con`, then let `calculate_connector_info` fill in the
encoding in place.  Note the order: the slot is filled and the count
incremented BEFORE the encoding runs, so an encoding failure (first
component `none`) still leaves the fresh descriptor in the table.  On
failure the stored descriptor keeps whatever fields were set before the
encoder gave up; since the encoder body is not part of these sources,
the model leaves it as the blank descriptor (its `string` and `str_hash`
fields, the only ones the table logic reads, are set by
`condesc_insert` itself per the C code). -/
def condesc_insert (ct : ConTable) (i : Nat) (constring : List Char) (hash : Nat) :
    Option condesc_t × ConTable :=
  let d0 := blank_condesc constring hash
  match calculate_connector_info d0 with
  | some d =>
      let ct2 := { ct with hdesc := fun j => if j = i then some d else ct.hdesc j }
      (some d, { ct2 with num_con := ct.num_con + 1 })
  | none =>
      let ct2 := { ct with hdesc := fun j => if j = i then some d0 else ct.hdesc j }
      (none, { ct2 with num_con := ct.num_con + 1 })

/-- The reinsertion loop of `condesc_grow` (connectors.h lines 355-368),
walking the old slot array in index order: each old descriptor is
re-found in the new table FROM ITS STORED 16-BIT `str_hash` (no
re-hashing of the string); re-finding a non-empty slot is the fatal
internal error (`none`), as is a probe that never exits. -/
def grow_loop : List (Option condesc_t) → ConTable → Option ConTable
  | [], t => some t
  | none :: rest, t => grow_loop rest t
  | some d :: rest, t =>
    match condesc_find t d.string d.str_hash with
    | none => none
    | some j =>
      match t.hdesc j with
      | some _ => none
      | none =>
          grow_loop rest
            { t with hdesc := (fun m => if m = j then some d else t.hdesc m) }

/-- `condesc_grow` (connectors.h lines 347-372): double the capacity
(`CONDESC_TABLE_GROW_FACTOR = 2`), allocate a fresh zeroed slot array,
and reinsert every existing descriptor; `none` is the fatal-error path
(construction aborts). -/
def condesc_grow (ct : ConTable) : Option ConTable :=
  grow_loop ((List.range ct.size).map ct.hdesc)
    (condesc_table_alloc ct (ct.size * 2))

/-- The empty-table initialization step of `condesc_add` (connectors.h
lines 376-380): on the first call, `num_con` is consumed as the literal
initial capacity and then reset to zero so that it can count actual
insertions. -/
def condesc_init (ct : ConTable) : ConTable :=
  if ct.size = 0 then { condesc_table_alloc ct ct.num_con with num_con := 0 } else ct

/-- `condesc_add` (connectors.h lines 374-398): intern `constring`.
Find a slot from the full Jenkins hash; an occupied slot returns the
existing descriptor; an empty slot gets a fresh descriptor, after which
the table grows when `8 * num_con > 3 * size` and the slot is re-found
in the grown table.  `none` in the first component is the NULL return
(encoding failure or fatal growth failure); the table component on
those failure paths is the state the model stopped in (the C program
aborts dictionary construction there). -/
def condesc_add (ct0 : ConTable) (constring : List Char) :
    Option condesc_t × ConTable :=
  let ct := condesc_init ct0
  let hash := connector_str_hash constring
  match condesc_find ct constring hash with
  | none => (none, ct)
  | some i =>
    match ct.hdesc i with
    | some d => (some d, ct)
    | none =>
      match condesc_insert ct i constring hash with
      | (none, ct2) => (none, ct2)
      | (some d, ct2) =>
        if 8 * ct2.num_con > 3 * ct2.size then
          match condesc_grow ct2 with
          | none => (none, ct2)
          | some ct3 =>
            match condesc_find ct3 constring hash with
            | none => (none, ct3)
            | some j =>
              match ct3.hdesc j with
              | some d2 => (some d2, ct3)
              | none => (none, ct3)
        else (some d, ct2)

/-- The number of occupied slots of a table. -/
def occupancy (ct : ConTable) : Nat :=
  (List.range ct.size).countP (fun i => (ct.hdesc i).isSome)

/-- The compatibility of the two optional leading lower-case markers:
incompatible exactly when both are present and equal. -/
def markerCompat : Option Char → Option Char → Bool
  | some a, some b => a ≠ b
  | _, _ => true

/-- The head/dependent-marker part of the connector grammar of spec
section 6: an optional leading lower-case letter, which must be one of
the two marker letters. -/
def markerOK : Option Char → Prop
  | some c => c = 'h' ∨ c = 'd'
  | none => True

/-- The connector-string grammar of spec section 6:
`[<marker>]<UPPERCASE-CORE>[<lowercase-suffix-with-wildcards>]`, the
core non-empty, the suffix at most 9 letters. -/
def wellFormedCon (s : List Char) : Prop :=
  markerOK (stripMarker s).1 ∧
  ucCore s ≠ [] ∧
  (∀ c ∈ lcSuffix s, c_islower c = true ∨ c = '*') ∧
  (lcSuffix s).length ≤ 9

/-- `d`'s encoding fields (packed lowercase signature and mask,
head/dependent marker) are the ones the encoder computes for the
connector string `s`. -/
def encodes (s : List Char) (d : condesc_t) : Prop :=
  ∃ d0, calculate_connector_info (blank_condesc s (connector_str_hash s)) = some d0 ∧
    d.lc_letters = d0.lc_letters ∧ d.lc_mask = d0.lc_mask ∧
    d.head_dependent = d0.head_dependent

/-- The probe loop's stop condition at slot `j`: an empty slot, or a
slot holding a descriptor with the looked-up string. -/
def stop (ct : ConTable) (s : List Char) (j : Nat) : Prop :=
  ct.hdesc j = none ∨ ∃ d, ct.hdesc j = some d ∧ d.string = s

/-- Slots at or beyond the capacity are not part of the C array. -/
def tbound (ct : ConTable) : Prop := ∀ i, ct.size ≤ i → ct.hdesc i = none

/-- The table never holds two descriptors with equal strings. -/
def nodupT (ct : ConTable) : Prop :=
  ∀ i j di dj, ct.hdesc i = some di → ct.hdesc j = some dj →
    di.string = dj.string → i = j

/-- Every stored descriptor's `str_hash` is the 16-bit truncation of the
full Jenkins hash of its string. -/
def hashesT (ct : ConTable) : Prop :=
  ∀ i d, ct.hdesc i = some d → d.str_hash = connector_str_hash d.string % 2 ^ 16

/-- Every stored descriptor is located by `condesc_find` from the full
hash of its string. -/
def findableT (ct : ConTable) : Prop :=
  ∀ i d, ct.hdesc i = some d →
    condesc_find ct d.string (connector_str_hash d.string) = some i

/-- No stored descriptor has the given string. -/
def strNotIn (ct : ConTable) (s : List Char) : Prop :=
  ∀ i d, ct.hdesc i = some d → d.string ≠ s

/-- The descriptor produced by the dictionary-load pipeline for a
connector string: a fresh blank descriptor (string and truncated hash
set by `condesc_insert`) filled in by the encoder.  For strings the
encoder rejects, the blank descriptor is returned as a dummy. -/
def encDesc (s : List Char) : condesc_t :=
  (calculate_connector_info (blank_condesc s (connector_str_hash s))).getD
    (blank_condesc s 0)

/-- An empty, freshly allocated 4-slot table (the state right after the
first `condesc_add` call consumed a capacity hint of 4). -/
def ctEmpty4 : ConTable := { hdesc := fun _ => none, size := 4, num_con := 0 }

/-- A connector string the encoder rejects: its lowercase suffix has 10
letters, one more than the 9 the 64-bit packed field supports. -/
def badSuffixCon : List Char := "Aabcdefghij".toList

/-- The reachable one-descriptor table obtained by interning "B" into an
empty 4-slot table. -/
def ctW3 : ConTable := (condesc_add ctEmpty4 ("B".toList)).2

/-- The pre-tallied empty table whose first intern consumes the
capacity hint 65536 = 2^16. -/
def cexHint : ConTable := { hdesc := fun _ => none, size := 0, num_con := 65536 }

/-- The reachable one-descriptor 65536-slot table obtained by interning
"A" (whose full Jenkins hash has bit 16 set) into the hint table. -/
def cexT1 : ConTable := (condesc_add cexHint ("A".toList)).2

/-- The table after `condesc_grow` doubles `cexT1` to 131072 slots. -/
def cexT2 : ConTable :=
  { hdesc := fun j => if j = (encDesc ("A".toList)).str_hash &&& (cexT1.size * 2 - 1) then some (encDesc ("A".toList)) else none,
    size := cexT1.size * 2, num_con := cexT1.num_con }

/-- The slot a fresh lookup of "A" probes first in the grown table. -/
def cexFreshSlot : Option condesc_t :=
  cexT2.hdesc (connector_str_hash ("A".toList) &&& (cexT1.size * 2 - 1))

/-- The occupancy count after re-interning "A" into the grown table. -/
def cexRecount : Nat := (condesc_add cexT2 ("A".toList)).2.num_con

/-- The pre-tallied empty table with capacity hint 8 = 2^3. -/
def ctHint8 : ConTable := { hdesc := fun _ => none, size := 0, num_con := 8 }

/-- The pre-tallied empty table with capacity hint 1 = 2^0 (the
smallest hint the claim admits; the first intern immediately triggers a
growth). -/
def ctHint1 : ConTable := { hdesc := fun _ => none, size := 0, num_con := 1 }

/-!
Verification of the connector subsystem of the link-grammar parser
(`link-grammar/connectors.h`): the connector match predicates
(`easy_match`, `lc_easy_match`, `easy_match_desc`), the connector
descriptor interning table (`condesc_find`, `condesc_insert`,
`condesc_grow`, `condesc_add`), and the hash functions
(`string_hash`, `connector_str_hash`).

Connector strings are modelled as `List Char` (a C string traversed up
to its NUL terminator).  The C `islower`/`isupper` checks run in the C
locale, where they test the ranges a-z and A-Z.  Machine integers are
modelled as `Nat` with explicit reductions modulo `2 ^ 32` (the
`uint32_t` hash computations) and modulo `2 ^ 16` (the `uint16_t`
`str_hash`/`uc_num` fields); the `uint64_t` lowercase encodings use at
most 9 slots of 7 bits = 63 bits, so they never overflow and are kept
as plain `Nat`.
-/

/-!
## The connector descriptor table

`ConTable` (connectors.h lines 78-87).  The `hdesc` array is modelled as
a total function from slot indices to optional descriptors; slots at or
beyond `size` are `none` (the C array simply does not have them, and
every access in the code masks its index into range first).  Descriptor
pointers are modelled by the descriptor values themselves: a slot holds
either NULL (`none`) or a descriptor (`some d`).
-/

/-!
## Bit-level lemmas

The packed lowercase comparison works slot-by-slot: these lemmas let the
7-bit head slot of the packed integers be split off from the rest.
-/

theorem addMul_xor {k : Nat} (a b x y : Nat) (ha : a < 2 ^ k) (hb : b < 2 ^ k) :
    (a + 2 ^ k * x) ^^^ (b + 2 ^ k * y) = (a ^^^ b) + 2 ^ k * (x ^^^ y) := by
  apply Nat.eq_of_testBit_eq
  intro i
  rw [Nat.add_comm a, Nat.add_comm b, Nat.add_comm (a ^^^ b), Nat.testBit_xor,
      Nat.testBit_mul_pow_two_add _ ha, Nat.testBit_mul_pow_two_add _ hb,
      Nat.testBit_mul_pow_two_add _ (Nat.xor_lt_two_pow ha hb)]
  by_cases h : i < k <;> simp [h, Nat.testBit_xor]

theorem addMul_land {k : Nat} (a b x y : Nat) (ha : a < 2 ^ k) (hb : b < 2 ^ k) :
    (a + 2 ^ k * x) &&& (b + 2 ^ k * y) = (a &&& b) + 2 ^ k * (x &&& y) := by
  apply Nat.eq_of_testBit_eq
  intro i
  rw [Nat.add_comm a, Nat.add_comm b, Nat.add_comm (a &&& b), Nat.testBit_and,
      Nat.testBit_mul_pow_two_add _ ha, Nat.testBit_mul_pow_two_add _ hb,
      Nat.testBit_mul_pow_two_add _ (Nat.and_lt_two_pow a hb)]
  by_cases h : i < k <;> simp [h, Nat.testBit_and]

theorem addMul_eq_zero {k : Nat} (a x : Nat) :
    a + 2 ^ k * x = 0 ↔ a = 0 ∧ x = 0 := by
  have hk : 0 < 2 ^ k := Nat.two_pow_pos k
  constructor
  · intro h
    constructor
    · omega
    · nlinarith [Nat.eq_zero_of_add_eq_zero_left h]
  · rintro ⟨rfl, rfl⟩
    simp

theorem lcSlotVal_lt (c : Char) : lcSlotVal c < 2 ^ 7 := by
  unfold lcSlotVal
  split
  · omega
  · exact Nat.and_lt_two_pow _ (by norm_num)

theorem lcSlotMask_lt (c : Char) : lcSlotMask c < 2 ^ 7 := by
  unfold lcSlotMask
  split <;> omega

/-- A lower-case letter's code fits in 7 bits and the `& LC_MASK`
truncation of the encoder keeps it intact. -/
theorem toNat_lt_of_islower {c : Char} (h : c_islower c = true) : c.toNat < 2 ^ 7 := by
  simp only [c_islower, Bool.and_eq_true, decide_eq_true_eq] at h
  have h2 : c.val ≤ ('z' : Char).val := h.2
  have h3 : c.val.toNat ≤ ('z' : Char).val.toNat := by
    rw [UInt32.le_def, BitVec.le_def] at h2
    exact h2
  simpa [Char.toNat] using Nat.lt_of_le_of_lt h3 (by decide)

theorem char_eq_of_toNat_eq {c d : Char} (h : c.toNat = d.toNat) : c = d := by
  apply Char.ext
  apply UInt32.eq_of_toBitVec_eq
  apply BitVec.eq_of_toNat_eq
  exact h

/-- One 7-bit slot of the packed comparison succeeds exactly when the
character-level comparison of `easy_match`'s lowercase loop does. -/
theorem slot_zero_iff {c d : Char}
    (hc : c_islower c = true ∨ c = '*') (hd : c_islower d = true ∨ d = '*') :
    (((lcSlotVal c ^^^ lcSlotVal d) &&& lcSlotMask c) &&& lcSlotMask d = 0
      ↔ (c = '*' ∨ d = '*' ∨ c = d)) := by
  by_cases hcs : c = '*'
  · simp [lcSlotMask, hcs]
  by_cases hds : d = '*'
  · simp [lcSlotMask, hds]
  have hc' : c_islower c = true := hc.resolve_right hcs
  have hd' : c_islower d = true := hd.resolve_right hds
  have hcv : lcSlotVal c = c.toNat := by
    have := toNat_lt_of_islower hc'
    simp only [lcSlotVal, if_neg hcs]
    calc c.toNat &&& 127 = c.toNat &&& (2 ^ 7 - 1) := by norm_num
    _ = c.toNat := Nat.and_pow_two_sub_one_of_lt_two_pow this
  have hdv : lcSlotVal d = d.toNat := by
    have := toNat_lt_of_islower hd'
    simp only [lcSlotVal, if_neg hds]
    calc d.toNat &&& 127 = d.toNat &&& (2 ^ 7 - 1) := by norm_num
    _ = d.toNat := Nat.and_pow_two_sub_one_of_lt_two_pow this
  have hxor : c.toNat ^^^ d.toNat < 2 ^ 7 :=
    Nat.xor_lt_two_pow (toNat_lt_of_islower hc') (toNat_lt_of_islower hd')
  have hmask : ((c.toNat ^^^ d.toNat) &&& 127) &&& 127 = c.toNat ^^^ d.toNat := by
    calc ((c.toNat ^^^ d.toNat) &&& 127) &&& 127
        = (c.toNat ^^^ d.toNat) &&& (127 &&& 127) := Nat.and_assoc _ _ _
    _ = (c.toNat ^^^ d.toNat) &&& (2 ^ 7 - 1) := by norm_num
    _ = c.toNat ^^^ d.toNat := Nat.and_pow_two_sub_one_of_lt_two_pow hxor
  rw [hcv, hdv]
  simp only [lcSlotMask, if_neg hcs, if_neg hds, hmask]
  constructor
  · intro h
    exact Or.inr (Or.inr (char_eq_of_toNat_eq (Nat.xor_eq_zero.mp h)))
  · rintro (h | h | rfl)
    · exact absurd h hcs
    · exact absurd h hds
    · simp

/-- The character-by-character truncating lowercase comparison of
`easy_match` coincides with the packed-integer test
`(sigA XOR sigB) AND maskA AND maskB == 0` used by `lc_easy_match`,
for suffixes made of lower-case letters and wildcards. -/
theorem lcLoop_iff_bits :
    ∀ a b : List Char,
    (∀ c ∈ a, c_islower c = true ∨ c = '*') →
    (∀ c ∈ b, c_islower c = true ∨ c = '*') →
    (lcLoop a b = true ↔
      ((lcEncode a).1 ^^^ (lcEncode b).1) &&& (lcEncode a).2 &&& (lcEncode b).2 = 0)
  | [], b, _, _ => by simp [lcLoop, lcEncode]
  | c :: a, [], _, _ => by simp [lcLoop, lcEncode]
  | c :: a, d :: b, ha, hb => by
    have hc := ha c (List.mem_cons_self c a)
    have hd := hb d (List.mem_cons_self d b)
    have ih := lcLoop_iff_bits a b
      (fun x hx => ha x (List.mem_cons_of_mem c hx))
      (fun x hx => hb x (List.mem_cons_of_mem d hx))
    have hvc := lcSlotVal_lt c
    have hvd := lcSlotVal_lt d
    have hmc := lcSlotMask_lt c
    have hmd := lcSlotMask_lt d
    have hexp :
        ((lcEncode (c :: a)).1 ^^^ (lcEncode (d :: b)).1) &&&
          (lcEncode (c :: a)).2 &&& (lcEncode (d :: b)).2 =
        (((lcSlotVal c ^^^ lcSlotVal d) &&& lcSlotMask c) &&& lcSlotMask d) +
          2 ^ 7 * (((lcEncode a).1 ^^^ (lcEncode b).1) &&&
            (lcEncode a).2 &&& (lcEncode b).2) := by
      show ((lcSlotVal c + 2 ^ 7 * (lcEncode a).1) ^^^
            (lcSlotVal d + 2 ^ 7 * (lcEncode b).1)) &&&
            (lcSlotMask c + 2 ^ 7 * (lcEncode a).2) &&&
            (lcSlotMask d + 2 ^ 7 * (lcEncode b).2) = _
      rw [addMul_xor _ _ _ _ hvc hvd,
          addMul_land _ _ _ _ (Nat.xor_lt_two_pow hvc hvd) hmc,
          addMul_land _ _ _ _ (Nat.and_lt_two_pow _ hmc) hmd]
    rw [hexp, addMul_eq_zero]
    by_cases hguard : (c = '*' || d = '*' || decide (c = d)) = true
    · have hsl : ((lcSlotVal c ^^^ lcSlotVal d) &&& lcSlotMask c) &&& lcSlotMask d = 0 := by
        rw [slot_zero_iff hc hd]
        have h2 : (c = '*' ∨ d = '*') ∨ c = d := by
          simpa [Bool.or_eq_true, decide_eq_true_eq] using hguard
        tauto
      simp only [lcLoop, hguard, if_true]
      rw [ih]
      simp [hsl]
    · have hsl : ¬ (((lcSlotVal c ^^^ lcSlotVal d) &&& lcSlotMask c) &&& lcSlotMask d = 0) := by
        rw [slot_zero_iff hc hd]
        have h2 : (¬ c = '*' ∧ ¬ d = '*') ∧ ¬ c = d := by
          simpa [Bool.or_eq_true, decide_eq_true_eq] using hguard
        tauto
      simp only [lcLoop, hguard, if_false]
      simp [hsl]

/-!
## Structure of the raw-string match
-/

theorem ne_of_isupper_of_not {a b : Char}
    (ha : c_isupper a = true) (hb : c_isupper b = false) : a ≠ b := by
  rintro rfl
  rw [ha] at hb
  exact absurd hb (by decide)

theorem headChar_dropWhile_not_isupper (l : List Char) :
    c_isupper (headChar (l.dropWhile (fun c => c_isupper c))) = false := by
  induction l with
  | nil => decide
  | cons c r ih =>
    by_cases h : c_isupper c = true
    · simpa [List.dropWhile_cons, h] using ih
    · simp only [Bool.not_eq_true] at h
      simp [List.dropWhile_cons, h, headChar]

/-- When neither side starts with an upper-case character, the
upper-case loop of `easy_match` immediately falls through to the
lower-case loop. -/
theorem ucLoop_notupper {r1 r2 : List Char}
    (h1 : c_isupper (headChar r1) = false) (h2 : c_isupper (headChar r2) = false) :
    ucLoop r1 r2 = lcLoop r1 r2 := by
  match r1, r2 with
  | [], [] => decide
  | [], d :: t => simp only [headChar] at h2; simp [ucLoop, lcLoop, headChar, h2]
  | c :: s, [] => simp only [headChar] at h1; simp [ucLoop, lcLoop, headChar, h1]
  | c :: s, d :: t =>
    simp only [headChar] at h1 h2
    simp [ucLoop, h1, h2]

/-- The upper-case loop of `easy_match` on strings decomposed into an
upper-case run followed by a rest that does not start upper-case:
it tests the runs for equality and then runs the lower-case loop. -/
theorem ucLoop_core :
    ∀ u1 u2 r1 r2 : List Char,
    (∀ c ∈ u1, c_isupper c = true) → (∀ c ∈ u2, c_isupper c = true) →
    c_isupper (headChar r1) = false → c_isupper (headChar r2) = false →
    ucLoop (u1 ++ r1) (u2 ++ r2) = if u1 = u2 then lcLoop r1 r2 else false
  | [], [], r1, r2, _, _, hr1, hr2 => by
    simpa using ucLoop_notupper hr1 hr2
  | [], d :: u2, r1, r2, _, h2, hr1, hr2 => by
    have hd : c_isupper d = true := h2 d (List.mem_cons_self d u2)
    have hne : headChar r1 ≠ d := (ne_of_isupper_of_not hd hr1).symm
    match r1 with
    | [] => simp [ucLoop, headChar, hd]
    | c :: s =>
      simp only [headChar] at hr1 hne
      simp [ucLoop, hd, hne, hr1]
  | c :: u1, [], r1, r2, h1, _, hr1, hr2 => by
    have hc : c_isupper c = true := h1 c (List.mem_cons_self c u1)
    have hne : c ≠ headChar r2 := ne_of_isupper_of_not hc hr2
    match r2 with
    | [] => simp [ucLoop, headChar, hc]
    | d :: t =>
      simp only [headChar] at hr2 hne
      simp [ucLoop, hc, hne]
  | c :: u1, d :: u2, r1, r2, h1, h2, hr1, hr2 => by
    have hc : c_isupper c = true := h1 c (List.mem_cons_self c u1)
    by_cases hcd : c = d
    · subst hcd
      have ih := ucLoop_core u1 u2 r1 r2
        (fun x hx => h1 x (List.mem_cons_of_mem c hx))
        (fun x hx => h2 x (List.mem_cons_of_mem c hx)) hr1 hr2
      have hstep : ucLoop (c :: (u1 ++ r1)) (c :: (u2 ++ r2)) = ucLoop (u1 ++ r1) (u2 ++ r2) := by
        simp [ucLoop, hc]
      simp only [List.cons_append]
      rw [hstep, ih]
      by_cases h : u1 = u2 <;> simp [h]
    · simp [ucLoop, hc, hcd, Ne.symm hcd]

/-- `easy_match` decomposed into its three independent checks: marker
compatibility, upper-case core equality, and the lower-case suffix walk.
This holds for arbitrary strings, because `takeWhile`/`dropWhile`
decompose the post-marker rest exactly the way the loops of
`easy_match` consume it. -/
theorem easy_match_decomp (s t : List Char) :
    easy_match s t =
      (markerCompat (stripMarker s).1 (stripMarker t).1 &&
        decide (ucCore s = ucCore t) && lcLoop (lcSuffix s) (lcSuffix t)) := by
  have hs : ucCore s ++ lcSuffix s = (stripMarker s).2 :=
    List.takeWhile_append_dropWhile _ _
  have ht : ucCore t ++ lcSuffix t = (stripMarker t).2 :=
    List.takeWhile_append_dropWhile _ _
  have hcore :
      ucLoop (stripMarker s).2 (stripMarker t).2 =
        if ucCore s = ucCore t then lcLoop (lcSuffix s) (lcSuffix t) else false := by
    rw [← hs, ← ht]
    exact ucLoop_core _ _ _ _
      (fun c hc => List.mem_takeWhile_imp hc)
      (fun c hc => List.mem_takeWhile_imp hc)
      (headChar_dropWhile_not_isupper _)
      (headChar_dropWhile_not_isupper _)
  unfold easy_match
  rcases hm1 : (stripMarker s).1 with _ | a <;> rcases hm2 : (stripMarker t).1 with _ | b
  · simp only [hm1, hm2, markerCompat, Bool.true_and]
    rw [hcore]
    by_cases h : ucCore s = ucCore t <;> simp [h]
  · simp only [hm1, hm2, markerCompat, Bool.true_and]
    rw [hcore]
    by_cases h : ucCore s = ucCore t <;> simp [h]
  · simp only [hm1, hm2, markerCompat, Bool.true_and]
    rw [hcore]
    by_cases h : ucCore s = ucCore t <;> simp [h]
  · simp only [hm1, hm2, markerCompat]
    by_cases hab : a = b
    · simp [hab]
    · rw [if_neg hab, hcore]
      by_cases h : ucCore s = ucCore t <;> simp [h, hab]

/-!
## The encoder contract and the fast/slow path equivalence
-/

theorem calc_fields {s : List Char} {h : Nat} {d0 : condesc_t}
    (hc : calculate_connector_info (blank_condesc s h) = some d0) :
    d0.lc_letters = (lcEncode (lcSuffix s)).1 ∧
    d0.lc_mask = (lcEncode (lcSuffix s)).2 ∧
    d0.head_dependent = hd_of_marker (stripMarker s).1 := by
  unfold calculate_connector_info at hc
  simp only [blank_condesc] at hc
  split at hc
  · exact absurd hc (by simp)
  split at hc
  · exact absurd hc (by simp)
  rename_i h1 h2
  rw [Option.some.injEq] at hc
  subst hc
  exact ⟨rfl, rfl, rfl⟩

theorem hd_vs_marker {m1 m2 : Option Char} (h1 : markerOK m1) (h2 : markerOK m2) :
    (if hd_of_marker m1 ≠ nulChar && hd_of_marker m1 = hd_of_marker m2
      then false else true) = markerCompat m1 m2 := by
  rcases m1 with _ | c1
  · rcases m2 with _ | c2
    · decide
    · rcases h2 with rfl | rfl <;> decide
  · rcases m2 with _ | c2
    · rcases h1 with rfl | rfl <;> decide
    · rcases h1 with rfl | rfl <;> rcases h2 with rfl | rfl <;> decide

theorem lcLoop_eq_false_of_not_true {a b : List Char} (h : ¬ lcLoop a b = true) :
    lcLoop a b = false := by
  cases hv : lcLoop a b
  · rfl
  · exact absurd hv h

/-- Claim C1: for descriptors whose fields correctly encode their well-formed
connector strings and whose `uc_num` ids reflect upper-case core
equality (the grouping-phase contract), the descriptor-form match equals
the raw-string-form match. -/
theorem easy_match_desc_eq_easy_match (s1 s2 : List Char) (d1 d2 : condesc_t)
    (hw1 : wellFormedCon s1) (hw2 : wellFormedCon s2)
    (he1 : encodes s1 d1) (he2 : encodes s2 d2)
    (hnum : d1.uc_num = d2.uc_num ↔ ucCore s1 = ucCore s2) :
    easy_match_desc d1 d2 = easy_match s1 s2 := by
  obtain ⟨e1, hce1, hl1, hm1, hh1⟩ := he1
  obtain ⟨e2, hce2, hl2, hm2, hh2⟩ := he2
  obtain ⟨hL1, hM1, hH1⟩ := calc_fields hce1
  obtain ⟨hL2, hM2, hH2⟩ := calc_fields hce2
  rw [easy_match_decomp]
  unfold easy_match_desc lc_easy_match
  rw [hl1, hm1, hh1, hl2, hm2, hh2, hL1, hM1, hH1, hL2, hM2, hH2]
  have hlc := lcLoop_iff_bits (lcSuffix s1) (lcSuffix s2) hw1.2.2.1 hw2.2.2.1
  by_cases hcore : ucCore s1 = ucCore s2
  · have hnn : d1.uc_num = d2.uc_num := hnum.mpr hcore
    rw [if_neg (by simpa using hnn)]
    by_cases hbits :
        ((lcEncode (lcSuffix s1)).1 ^^^ (lcEncode (lcSuffix s2)).1) &&&
          (lcEncode (lcSuffix s1)).2 &&& (lcEncode (lcSuffix s2)).2 = 0
    · have hlt : lcLoop (lcSuffix s1) (lcSuffix s2) = true := hlc.mpr hbits
      rw [if_neg (by simpa using hbits)]
      rw [hd_vs_marker hw1.1 hw2.1]
      simp [hcore, hlt]
    · have hlf : lcLoop (lcSuffix s1) (lcSuffix s2) = false :=
        lcLoop_eq_false_of_not_true (fun h => hbits (hlc.mp h))
      rw [if_pos (by simpa using hbits)]
      simp [hlf]
  · have hnn : ¬ d1.uc_num = d2.uc_num := fun h => hcore (hnum.mp h)
    rw [if_pos (by simpa using hnn)]
    simp [hcore]

/-!
## Symmetry and prefix lemmas for the match predicates
-/

theorem lcLoop_symm : ∀ a b : List Char, lcLoop a b = lcLoop b a
  | [], [] => rfl
  | [], _ :: _ => rfl
  | _ :: _, [] => rfl
  | c :: a, d :: b => by
    have ih := lcLoop_symm a b
    by_cases h3 : c = d
    · subst h3
      simp [lcLoop, ih]
    · have h3' : ¬ d = c := fun h => h3 h.symm
      by_cases h1 : c = '*'
      · subst h1
        simp [lcLoop, ih]
      · by_cases h2 : d = '*'
        · subst h2
          simp [lcLoop, ih]
        · simp [lcLoop, h1, h2, h3, h3']

theorem ucLoop_cons_cons (c d : Char) (s t : List Char) :
    ucLoop (c :: s) (d :: t) =
      if c_isupper c || c_isupper d then (if c = d then ucLoop s t else false)
      else lcLoop (c :: s) (d :: t) := rfl

theorem ucLoop_symm : ∀ s t : List Char, ucLoop s t = ucLoop t s
  | [], [] => rfl
  | [], _ :: _ => rfl
  | _ :: _, [] => rfl
  | c :: s, d :: t => by
    have ih := ucLoop_symm s t
    rw [ucLoop_cons_cons, ucLoop_cons_cons]
    by_cases h3 : c = d
    · subst h3
      by_cases hu : c_isupper c = true
      · simp [hu, ih]
      · simp [hu, lcLoop_symm (c :: s) (c :: t)]
    · have h3' : ¬ d = c := fun h => h3 h.symm
      by_cases hc2 : c_isupper c = true
      · simp [hc2, h3, h3']
      · by_cases hd2 : c_isupper d = true
        · simp [hc2, hd2, h3, h3']
        · simp [hc2, hd2, lcLoop_symm (c :: s) (d :: t)]

theorem easy_match_symm (s t : List Char) : easy_match s t = easy_match t s := by
  rw [easy_match_decomp, easy_match_decomp]
  have hmc : markerCompat (stripMarker s).1 (stripMarker t).1 =
      markerCompat (stripMarker t).1 (stripMarker s).1 := by
    rcases (stripMarker s).1 with _ | a <;> rcases (stripMarker t).1 with _ | b <;>
      simp [markerCompat, ne_comm]
  have hco : decide (ucCore s = ucCore t) = decide (ucCore t = ucCore s) := by
    simp [eq_comm]
  rw [hmc, hco, lcLoop_symm]

theorem easy_match_desc_symm (c1 c2 : condesc_t) :
    easy_match_desc c1 c2 = easy_match_desc c2 c1 := by
  unfold easy_match_desc lc_easy_match
  have hb : (c1.lc_letters ^^^ c2.lc_letters) &&& c1.lc_mask &&& c2.lc_mask
      = (c2.lc_letters ^^^ c1.lc_letters) &&& c2.lc_mask &&& c1.lc_mask := by
    rw [Nat.xor_comm, Nat.and_assoc, Nat.and_comm c1.lc_mask, ← Nat.and_assoc]
  by_cases hn : c1.uc_num = c2.uc_num
  · simp only [hn, ne_eq, not_true_eq_false, if_false]
    rw [hb]
    by_cases hzero : (c2.lc_letters ^^^ c1.lc_letters) &&& c2.lc_mask &&& c1.lc_mask = 0
    · simp only [hzero]
      by_cases hh : c1.head_dependent = c2.head_dependent
      · simp [hh]
      · have hh' : ¬ c2.head_dependent = c1.head_dependent := fun h => hh h.symm
        simp [hh, hh']
    · simp [hzero]
  · have hn' : ¬ c2.uc_num = c1.uc_num := fun h => hn h.symm
    simp [hn, hn']

theorem lcLoop_self_append : ∀ a r : List Char, lcLoop a (a ++ r) = true
  | [], _ => rfl
  | c :: a, r => by simp [lcLoop, lcLoop_self_append a r]

theorem lcLoop_append_self (a r : List Char) : lcLoop (a ++ r) a = true := by
  rw [lcLoop_symm]
  exact lcLoop_self_append a r

/-!
## Linear-probing lemmas
-/

theorem probe_succ (ct : ConTable) (s : List Char) (i fuel : Nat) :
    probe ct s i (fuel + 1) =
      match ct.hdesc i with
      | none => some i
      | some d =>
        if d.string = s then some i
        else probe ct s ((i + 1) &&& (ct.size - 1)) fuel := rfl

theorem and_mask_eq_mod {n k : Nat} (h : n = 2 ^ k) (x : Nat) :
    x &&& (n - 1) = x % n := by
  subst h
  exact Nat.and_pow_two_sub_one_eq_mod x k

theorem size_pos_of_pow {n k : Nat} (h : n = 2 ^ k) : 0 < n := by
  subst h
  exact Nat.two_pow_pos k

theorem exists_least_of_exists {P : Nat → Prop} (h : ∃ m, P m) :
    ∃ m, P m ∧ ∀ l, l < m → ¬ P l := by
  classical
  exact ⟨Nat.find h, Nat.find_spec h, fun l hl => Nat.find_min h hl⟩

/-- If the first stop of the probe sequence from `i` occurs after `m`
steps, the probe loop returns that slot. -/
theorem probe_first_stop {ct : ConTable} {k : Nat} (hk : ct.size = 2 ^ k)
    (s : List Char) (m : Nat) :
    ∀ i fuel, i < ct.size → m < fuel →
    (∀ l, l < m → ¬ stop ct s ((i + l) % ct.size)) →
    stop ct s ((i + m) % ct.size) →
    probe ct s i fuel = some ((i + m) % ct.size) := by
  induction m with
  | zero =>
    intro i fuel hi hf _ hstop
    rw [Nat.add_zero, Nat.mod_eq_of_lt hi] at hstop
    match fuel, hf with
    | fuel + 1, _ =>
      rcases hstop with hnone | ⟨d, hd, hds⟩
      · simp only [probe_succ, hnone, Nat.add_zero, Nat.mod_eq_of_lt hi]
      · simp only [probe_succ, hd, if_pos hds, Nat.add_zero, Nat.mod_eq_of_lt hi]
  | succ m ih =>
    intro i fuel hi hf hlt hstop
    have h0 : ¬ stop ct s i := by
      have := hlt 0 (Nat.succ_pos m)
      rwa [Nat.add_zero, Nat.mod_eq_of_lt hi] at this
    rcases hv : ct.hdesc i with _ | d
    · exact absurd (Or.inl hv) h0
    have hds : ¬ d.string = s := fun h => h0 (Or.inr ⟨d, hv, h⟩)
    match fuel, hf with
    | fuel + 1, hf =>
      simp only [probe_succ, hv, if_neg hds]
      rw [and_mask_eq_mod hk]
      have hpos : 0 < ct.size := size_pos_of_pow hk
      have hi1 : (i + 1) % ct.size < ct.size := Nat.mod_lt _ hpos
      have harith : ∀ l : Nat, ((i + 1) % ct.size + l) % ct.size = (i + (l + 1)) % ct.size := by
        intro l
        rw [Nat.mod_add_mod]
        congr 1
        omega
      have hpath : ∀ l, l < m → ¬ stop ct s (((i + 1) % ct.size + l) % ct.size) := by
        intro l hl
        rw [harith l]
        exact hlt (l + 1) (Nat.succ_lt_succ hl)
      have hstop2 : stop ct s (((i + 1) % ct.size + m) % ct.size) := by
        rw [harith m]
        exact hstop
      have := ih ((i + 1) % ct.size) fuel hi1 (Nat.lt_of_succ_lt_succ hf) hpath hstop2
      rw [this, harith m]

/-- Characterization of a successful probe: the returned slot is the
first stop of the probe sequence. -/
theorem probe_char {ct : ConTable} {k : Nat} (hk : ct.size = 2 ^ k) (s : List Char) :
    ∀ fuel i j, i < ct.size → probe ct s i fuel = some j →
    ∃ m, m < fuel ∧ j = (i + m) % ct.size ∧
      (∀ l, l < m → ¬ stop ct s ((i + l) % ct.size)) ∧ stop ct s j := by
  intro fuel
  induction fuel with
  | zero => intro i j _ h; exact absurd h (by simp [probe])
  | succ fuel ih =>
    intro i j hi hp
    rcases hv : ct.hdesc i with _ | d
    · simp only [probe_succ, hv, Option.some.injEq] at hp
      subst hp
      exact ⟨0, Nat.succ_pos fuel, by rw [Nat.add_zero, Nat.mod_eq_of_lt hi],
        fun l hl => absurd hl (Nat.not_lt_zero l), Or.inl hv⟩
    · by_cases hds : d.string = s
      · simp only [probe_succ, hv, if_pos hds, Option.some.injEq] at hp
        subst hp
        exact ⟨0, Nat.succ_pos fuel, by rw [Nat.add_zero, Nat.mod_eq_of_lt hi],
          fun l hl => absurd hl (Nat.not_lt_zero l), Or.inr ⟨d, hv, hds⟩⟩
      · simp only [probe_succ, hv, if_neg hds] at hp
        rw [and_mask_eq_mod hk] at hp
        have hpos : 0 < ct.size := size_pos_of_pow hk
        have hi1 : (i + 1) % ct.size < ct.size := Nat.mod_lt _ hpos
        obtain ⟨m, hm, hj, hpath, hstop⟩ := ih ((i + 1) % ct.size) j hi1 hp
        have harith : ∀ l : Nat, ((i + 1) % ct.size + l) % ct.size = (i + (l + 1)) % ct.size := by
          intro l
          rw [Nat.mod_add_mod]
          congr 1
          omega
        refine ⟨m + 1, Nat.succ_lt_succ hm, by rw [hj, harith m], ?_, hstop⟩
        intro l hl
        match l with
        | 0 =>
          rw [Nat.add_zero, Nat.mod_eq_of_lt hi]
          exact fun hc => by
            rcases hc with hnone | ⟨d2, hd2, hds2⟩
            · rw [hv] at hnone
              exact Option.noConfusion hnone
            · rw [hv] at hd2
              rw [Option.some.injEq] at hd2
              subst hd2
              exact hds hds2
        | l + 1 =>
          rw [← harith l]
          exact hpath l (Nat.lt_of_succ_lt_succ hl)

/-- Any slot of the table is reached from any start in fewer than `size`
probe steps. -/
theorem exists_probe_offset {n : Nat} (_hpos : 0 < n) (start j : Nat)
    (hs : start < n) (hj : j < n) : ∃ m, m < n ∧ (start + m) % n = j := by
  by_cases h : start ≤ j
  · exact ⟨j - start, by omega, by rw [show start + (j - start) = j from by omega,
      Nat.mod_eq_of_lt hj]⟩
  · refine ⟨n - start + j, by omega, ?_⟩
    rw [show start + (n - start + j) = n + j from by omega, Nat.add_mod_left,
      Nat.mod_eq_of_lt hj]

/-- If some slot of the probe cycle satisfies the stop condition, the
probe loop with `size` fuel terminates. -/
theorem probe_isSome {ct : ConTable} {k : Nat} (hk : ct.size = 2 ^ k)
    (s : List Char) (i : Nat) (hi : i < ct.size)
    (h : ∃ m, m < ct.size ∧ stop ct s ((i + m) % ct.size)) :
    (probe ct s i ct.size).isSome := by
  obtain ⟨m, hm, hstop⟩ := h
  obtain ⟨m2, hP2, hmin⟩ :=
    @exists_least_of_exists (fun l => stop ct s ((i + l) % ct.size)) ⟨m, hstop⟩
  have hm2 : m2 ≤ m := by
    by_contra hc
    exact hmin m (by omega) hstop
  rw [probe_first_stop hk s m2 i ct.size hi (by omega) hmin hP2]
  rfl

/-- A table with fewer occupied slots than capacity has an empty slot. -/
theorem exists_empty_slot {ct : ConTable} (h : occupancy ct < ct.size) :
    ∃ j, j < ct.size ∧ ct.hdesc j = none := by
  unfold occupancy at h
  by_contra hc
  push_neg at hc
  have hall : ∀ j ∈ List.range ct.size, ((ct.hdesc j).isSome = true) := by
    intro j hj
    rw [List.mem_range] at hj
    rcases hv : ct.hdesc j with _ | d
    · exact absurd hv (hc j hj)
    · rfl
  rw [List.countP_eq_length.mpr hall, List.length_range] at h
  exact Nat.lt_irrefl _ h

/-- `condesc_find` terminates on every lookup in a power-of-two-sized
table that has an empty slot. -/
theorem condesc_find_isSome {ct : ConTable} {k : Nat} (hk : ct.size = 2 ^ k)
    (hocc : occupancy ct < ct.size) (s : List Char) (hash : Nat) :
    (condesc_find ct s hash).isSome := by
  obtain ⟨j, hj, hempty⟩ := exists_empty_slot hocc
  have hpos : 0 < ct.size := size_pos_of_pow hk
  have hstart : hash &&& (ct.size - 1) < ct.size := by
    rw [and_mask_eq_mod hk]
    exact Nat.mod_lt _ hpos
  obtain ⟨m, hm, hmj⟩ := exists_probe_offset hpos _ j hstart hj
  exact probe_isSome hk s _ hstart ⟨m, hm, by rw [hmj]; exact Or.inl hempty⟩

/-!
## Table invariants and their preservation
-/

/-- While the capacity divides `2 ^ 16`, probing from the truncated
16-bit stored hash is the same as probing from the full hash. -/
theorem find_trunc_eq {ct : ConTable} {k : Nat} (hk : ct.size = 2 ^ k)
    (hle : k ≤ 16) (s : List Char) (full : Nat) :
    condesc_find ct s (full % 2 ^ 16) = condesc_find ct s full := by
  unfold condesc_find
  congr 1
  rw [and_mask_eq_mod hk, and_mask_eq_mod hk]
  exact Nat.mod_mod_of_dvd full (hk ▸ Nat.pow_dvd_pow 2 hle)

theorem occupancy_update {ct : ConTable} {q : Nat} {d : condesc_t}
    (hq : ct.hdesc q = none) (hqs : q < ct.size) :
    occupancy { ct with hdesc := fun j => if j = q then some d else ct.hdesc j }
      = occupancy ct + 1 := by
  unfold occupancy
  have hmem : q ∈ List.range ct.size := List.mem_range.mpr hqs
  have hnd : (List.range ct.size).Nodup := List.nodup_range _
  have main : ∀ l : List Nat, l.Nodup → q ∈ l →
      (List.countP (fun i => ((if i = q then some d else ct.hdesc i).isSome)) l)
        = List.countP (fun i => (ct.hdesc i).isSome) l + 1 := by
    intro l
    induction l with
    | nil => intro _ h; exact absurd h (List.not_mem_nil q)
    | cons x xs ih =>
      intro hnd hmem
      have hndtail : xs.Nodup := (List.nodup_cons.mp hnd).2
      by_cases hx : x = q
      · subst hx
        have hnotin : x ∉ xs := (List.nodup_cons.mp hnd).1
        have htail : List.countP (fun i => ((if i = x then some d else ct.hdesc i).isSome)) xs
            = List.countP (fun i => (ct.hdesc i).isSome) xs := by
          apply List.countP_congr
          intro y hy
          have : y ≠ x := fun h => hnotin (h ▸ hy)
          simp [this]
        rw [List.countP_cons_of_pos _ _ (by simp), htail,
          List.countP_cons_of_neg _ _ (by simp [hq])]
      · have hmem2 : q ∈ xs := by
          rcases List.mem_cons.mp hmem with h | h
          · exact absurd h.symm hx
          · exact h
        rw [List.countP_cons, List.countP_cons, ih hndtail hmem2]
        have : ((if x = q then some d else ct.hdesc x).isSome) = ((ct.hdesc x).isSome) := by
          simp [hx]
        rw [this]
        omega
  exact main _ hnd hmem

/-- Filling an empty slot does not disturb any probe that did not stop
at that slot, and makes the filled slot findable when it was the probe's
stop.  `ct2` is any table that agrees pointwise with `ct` updated at the
empty slot `q`. -/
theorem find_after_fill {ct ct2 : ConTable} {k q : Nat} {dq : condesc_t}
    (hk : ct.size = 2 ^ k) (hsz : ct2.size = ct.size)
    (hupd : ∀ m, ct2.hdesc m = if m = q then some dq else ct.hdesc m)
    (hq : ct.hdesc q = none)
    (s : List Char) (h i : Nat)
    (hfind : condesc_find ct s h = some i)
    (hcase : (∃ di, ct.hdesc i = some di ∧ di.string = s) ∨ (i = q ∧ dq.string = s)) :
    condesc_find ct2 s h = some i := by
  have hpos : 0 < ct.size := size_pos_of_pow hk
  have hk2 : ct2.size = 2 ^ k := by rw [hsz, hk]
  have hstart : h &&& (ct.size - 1) < ct.size := by
    rw [and_mask_eq_mod hk]
    exact Nat.mod_lt _ hpos
  obtain ⟨m, hm, hj, hpath, hstop⟩ := probe_char hk s ct.size _ i hstart hfind
  have hpath2 : ∀ l, l < m →
      ¬ stop ct2 s (((h &&& (ct.size - 1)) + l) % ct2.size) := by
    intro l hl hs2
    rw [hsz] at hs2
    have hne : ((h &&& (ct.size - 1)) + l) % ct.size ≠ q := by
      intro he
      exact hpath l hl (by rw [he]; exact Or.inl hq)
    rcases hs2 with hnone | ⟨d2, hd2, hds2⟩
    · rw [hupd _, if_neg hne] at hnone
      exact hpath l hl (Or.inl hnone)
    · rw [hupd _, if_neg hne] at hd2
      exact hpath l hl (Or.inr ⟨d2, hd2, hds2⟩)
  have hstop2 : stop ct2 s i := by
    rcases hcase with ⟨di, hdi, hdis⟩ | ⟨rfl, hdqs⟩
    · have hne : i ≠ q := by
        intro he
        rw [he, hq] at hdi
        exact Option.noConfusion hdi
      refine Or.inr ⟨di, ?_, hdis⟩
      rw [hupd _, if_neg hne]
      exact hdi
    · refine Or.inr ⟨dq, ?_, hdqs⟩
      rw [hupd _, if_pos rfl]
  have hrun := probe_first_stop hk2 s m (h &&& (ct.size - 1)) ct2.size
    (by rw [hsz]; exact hstart) (by rw [hsz]; exact hm) hpath2
    (by rw [hsz, ← hj]; exact hstop2)
  unfold condesc_find
  have hmask : h &&& (ct2.size - 1) = h &&& (ct.size - 1) := by rw [hsz]
  rw [hmask, hrun, hsz, ← hj]

theorem occupancy_congr {ct ct2 : ConTable} (hsz : ct2.size = ct.size)
    (hupd : ∀ m, ct2.hdesc m = ct.hdesc m) : occupancy ct2 = occupancy ct := by
  unfold occupancy
  rw [hsz]
  apply List.countP_congr
  intro y _
  rw [hupd y]

theorem occupancy_update_of {ct ct2 : ConTable} {q : Nat} {d : condesc_t}
    (hsz : ct2.size = ct.size)
    (hupd : ∀ m, ct2.hdesc m = if m = q then some d else ct.hdesc m)
    (hq : ct.hdesc q = none) (hqs : q < ct.size) :
    occupancy ct2 = occupancy ct + 1 := by
  have h1 : occupancy ct2 =
      occupancy { ct with hdesc := fun j => if j = q then some d else ct.hdesc j } :=
    occupancy_congr hsz hupd
  rw [h1, occupancy_update hq hqs]

theorem grow_loop_none (o : Option condesc_t) (rest : List (Option condesc_t))
    (t : ConTable) (h : o = none) : grow_loop (o :: rest) t = grow_loop rest t := by
  subst h
  rfl

theorem grow_loop_step {t : ConTable} {d : condesc_t} {rest : List (Option condesc_t)}
    {q : Nat} (hfind : condesc_find t d.string d.str_hash = some q)
    (hempty : t.hdesc q = none) :
    grow_loop (some d :: rest) t =
      grow_loop rest { t with hdesc := fun m => if m = q then some d else t.hdesc m } := by
  show (match condesc_find t d.string d.str_hash with
    | none => none
    | some j =>
      match t.hdesc j with
      | some _ => none
      | none => grow_loop rest { t with hdesc := fun m => if m = j then some d else t.hdesc m }) = _
  rw [hfind]
  show (match t.hdesc q with
    | some _ => none
    | none => grow_loop rest { t with hdesc := fun m => if m = q then some d else t.hdesc m }) = _
  rw [hempty]

/-- Full specification of the reinsertion loop of `condesc_grow`: under
the table invariants, with pairwise-distinct incoming strings that do
not collide with the strings already placed, and enough room, the loop
succeeds, preserves the invariants, places every incoming descriptor,
keeps every already-placed descriptor, and adds nothing else. -/
theorem grow_loop_spec {k : Nat} (hk16 : k ≤ 16) :
    ∀ (l : List (Option condesc_t)) (t : ConTable),
    t.size = 2 ^ k →
    tbound t → nodupT t → hashesT t → findableT t →
    (∀ d, some d ∈ l → d.str_hash = connector_str_hash d.string % 2 ^ 16) →
    (∀ d, some d ∈ l → strNotIn t d.string) →
    (l.filterMap id).Pairwise (fun a b => a.string ≠ b.string) →
    occupancy t + (l.filterMap id).length ≤ t.size →
    ∃ t2, grow_loop l t = some t2 ∧
      t2.size = t.size ∧ t2.num_con = t.num_con ∧
      tbound t2 ∧ nodupT t2 ∧ hashesT t2 ∧ findableT t2 ∧
      occupancy t2 = occupancy t + (l.filterMap id).length ∧
      (∀ d, some d ∈ l → ∃ j, t2.hdesc j = some d) ∧
      (∀ i d, t.hdesc i = some d → ∃ j, t2.hdesc j = some d) ∧
      (∀ j d, t2.hdesc j = some d → some d ∈ l ∨ ∃ i, t.hdesc i = some d) := by
  intro l
  induction l with
  | nil =>
    intro t hk htb hnd hh hf _ _ _ hocc
    refine ⟨t, rfl, rfl, rfl, htb, hnd, hh, hf, by simp, ?_, ?_, ?_⟩
    · intro d hd
      exact absurd hd (List.not_mem_nil _)
    · intro i d hd
      exact ⟨i, hd⟩
    · intro j d hd
      exact Or.inr ⟨j, hd⟩
  | cons o rest ih =>
    intro t hk htb hnd hh hf hhm hsn hpw hocc
    rcases o with _ | d
    · rw [grow_loop_none none rest t rfl]
      simp only [List.filterMap_cons_none, List.mem_cons] at hhm hsn hpw hocc ⊢
      obtain ⟨t2, hrun, hsz, hnc, htb2, hnd2, hh2, hf2, hoc2, hmem2, hpres2, hcov2⟩ :=
        ih t hk htb hnd hh hf
          (fun d hd => hhm d (Or.inr hd)) (fun d hd => hsn d (Or.inr hd)) hpw hocc
      refine ⟨t2, hrun, hsz, hnc, htb2, hnd2, hh2, hf2, by simpa using hoc2, ?_, hpres2, ?_⟩
      · intro d hd
        rcases hd with hd | hd
        · exact absurd hd (by simp)
        · exact hmem2 d hd
      · intro j d hd
        rcases hcov2 j d hd with hmem | hstored
        · exact Or.inl (Or.inr hmem)
        · exact Or.inr hstored
    · have hdm : some d ∈ some d :: rest := List.mem_cons_self _ _
      have hfull : d.str_hash = connector_str_hash d.string % 2 ^ 16 := hhm d hdm
      have hfm : ((some d :: rest).filterMap id) = d :: rest.filterMap id := rfl
      rw [hfm, List.length_cons] at hocc
      rw [hfm] at hpw
      rw [List.pairwise_cons] at hpw
      have hoct : occupancy t < t.size := by omega
      have hfsome : (condesc_find t d.string (connector_str_hash d.string)).isSome :=
        condesc_find_isSome hk hoct _ _
      rcases hfq : condesc_find t d.string (connector_str_hash d.string) with _ | q
      · rw [hfq] at hfsome
        exact absurd hfsome (by simp)
      have hfq' : condesc_find t d.string d.str_hash = some q := by
        rw [hfull, find_trunc_eq hk hk16, hfq]
      have hpos : 0 < t.size := size_pos_of_pow hk
      have hstart : connector_str_hash d.string &&& (t.size - 1) < t.size := by
        rw [and_mask_eq_mod hk]
        exact Nat.mod_lt _ hpos
      obtain ⟨m, _, hjq, _, hstopq⟩ := probe_char hk d.string t.size _ q hstart hfq
      have hqlt : q < t.size := by
        rw [hjq]
        exact Nat.mod_lt _ hpos
      have hqnone : t.hdesc q = none := by
        rcases hstopq with hqe | ⟨e, he, hes⟩
        · exact hqe
        · exact absurd hes (hsn d hdm q e he)
      rw [grow_loop_step hfq' hqnone]
      set t' : ConTable :=
        { t with hdesc := fun m => if m = q then some d else t.hdesc m } with ht'
      have ht'upd : ∀ m, t'.hdesc m = if m = q then some d else t.hdesc m := fun m => rfl
      have ht'sz : t'.size = t.size := rfl
      have hk' : t'.size = 2 ^ k := hk
      have htb' : tbound t' := by
        intro i hi
        rw [ht'upd i, if_neg (by intro he; omega)]
        exact htb i hi
      have hnd' : nodupT t' := by
        intro i j di dj hi hj hs
        rw [ht'upd i] at hi
        rw [ht'upd j] at hj
        by_cases hiq : i = q <;> by_cases hjq2 : j = q
        · omega
        · rw [if_pos hiq] at hi
          rw [if_neg hjq2] at hj
          rw [Option.some.injEq] at hi
          subst hi
          exact absurd hs.symm (hsn d hdm j dj hj)
        · rw [if_neg hiq] at hi
          rw [if_pos hjq2] at hj
          rw [Option.some.injEq] at hj
          subst hj
          exact absurd hs (hsn d hdm i di hi)
        · rw [if_neg hiq] at hi
          rw [if_neg hjq2] at hj
          exact hnd i j di dj hi hj hs
      have hh' : hashesT t' := by
        intro i di hi
        rw [ht'upd i] at hi
        by_cases hiq : i = q
        · rw [if_pos hiq, Option.some.injEq] at hi
          subst hi
          exact hfull
        · rw [if_neg hiq] at hi
          exact hh i di hi
      have hf' : findableT t' := by
        intro i di hi
        rw [ht'upd i] at hi
        by_cases hiq : i = q
        · rw [if_pos hiq, Option.some.injEq] at hi
          subst hi
          subst hiq
          exact find_after_fill hk ht'sz ht'upd hqnone _ _ _ hfq (Or.inr ⟨rfl, rfl⟩)
        · rw [if_neg hiq] at hi
          exact find_after_fill hk ht'sz ht'upd hqnone _ _ _ (hf i di hi)
            (Or.inl ⟨di, hi, rfl⟩)
      have hocc' : occupancy t' = occupancy t + 1 :=
        occupancy_update_of ht'sz ht'upd hqnone hqlt
      have hhm' : ∀ e, some e ∈ rest → e.str_hash = connector_str_hash e.string % 2 ^ 16 :=
        fun e he => hhm e (List.mem_cons_of_mem _ he)
      have hsn' : ∀ e, some e ∈ rest → strNotIn t' e.string := by
        intro e he i di hi
        rw [ht'upd i] at hi
        by_cases hiq : i = q
        · rw [if_pos hiq, Option.some.injEq] at hi
          subst hi
          exact hpw.1 e (by
            rw [List.mem_filterMap]
            exact ⟨some e, he, rfl⟩)
        · rw [if_neg hiq] at hi
          exact hsn e (List.mem_cons_of_mem _ he) i di hi
      have hocc2 : occupancy t' + (rest.filterMap id).length ≤ t'.size := by
        rw [hocc', ht'sz]
        omega
      obtain ⟨t2, hrun, hsz, hnc, htb2, hnd2, hh2, hf2, hoc2, hmem2, hpres2, hcov2⟩ :=
        ih t' hk' htb' hnd' hh' hf' hhm' hsn' hpw.2 hocc2
      refine ⟨t2, hrun, by rw [hsz, ht'sz], by rw [hnc], htb2, hnd2, hh2, hf2, ?_, ?_, ?_, ?_⟩
      · rw [hoc2, hocc', hfm, List.length_cons]
        omega
      · intro e he
        rcases List.mem_cons.mp he with he1 | he2
        · rw [Option.some.injEq] at he1
          subst he1
          exact hpres2 q e (by rw [ht'upd q, if_pos rfl])
        · exact hmem2 e he2
      · intro i e hi
        have hiq : i ≠ q := by
          intro he
          rw [he, hqnone] at hi
          exact Option.noConfusion hi
        exact hpres2 i e (by rw [ht'upd i, if_neg hiq]; exact hi)
      · intro j e hj
        rcases hcov2 j e hj with hmem | ⟨i, hi⟩
        · exact Or.inl (List.mem_cons_of_mem _ hmem)
        · rw [ht'upd i] at hi
          by_cases hiq : i = q
          · rw [if_pos hiq, Option.some.injEq] at hi
            subst hi
            exact Or.inl (List.mem_cons_self _ _)
          · rw [if_neg hiq] at hi
            exact Or.inr ⟨i, hi⟩

/-- The occupancy of a table equals the number of descriptors collected
by walking its slot array. -/
theorem filterMap_range_length (ct : ConTable) :
    (((List.range ct.size).map ct.hdesc).filterMap id).length = occupancy ct := by
  rw [List.filterMap_map, Function.id_comp, List.length_filterMap_eq_countP]
  rfl

/-- `condesc_grow` under the table invariants: growth succeeds, doubles
the capacity, preserves the descriptor population and the invariants,
and (while the doubled capacity still divides `2 ^ 16`) leaves every
descriptor findable from the full hash of its string. -/
theorem condesc_grow_spec {ct : ConTable} {k : Nat} (hk : ct.size = 2 ^ k)
    (hk16 : k + 1 ≤ 16)
    (htb : tbound ct) (hnd : nodupT ct) (hh : hashesT ct) :
    ∃ ct2, condesc_grow ct = some ct2 ∧
      ct2.size = 2 * ct.size ∧ ct2.num_con = ct.num_con ∧
      tbound ct2 ∧ nodupT ct2 ∧ hashesT ct2 ∧ findableT ct2 ∧
      occupancy ct2 = occupancy ct ∧
      (∀ i d, ct.hdesc i = some d → ∃ j, ct2.hdesc j = some d) ∧
      (∀ j d, ct2.hdesc j = some d → ∃ i, ct.hdesc i = some d) := by
  set t0 : ConTable := condesc_table_alloc ct (ct.size * 2) with ht0
  set l : List (Option condesc_t) := (List.range ct.size).map ct.hdesc with hl
  have ht0upd : ∀ m, t0.hdesc m = none := fun m => rfl
  have ht0sz : t0.size = 2 ^ (k + 1) := by
    show ct.size * 2 = 2 ^ (k + 1)
    rw [hk, Nat.pow_succ]
  have hmem_of : ∀ d, some d ∈ l → ∃ i, i < ct.size ∧ ct.hdesc i = some d := by
    intro d hd
    rw [hl, List.mem_map] at hd
    obtain ⟨i, hi, hdi⟩ := hd
    exact ⟨i, List.mem_range.mp hi, hdi⟩
  have hocc0 : occupancy t0 = 0 := by
    unfold occupancy
    apply List.countP_eq_zero.mpr
    intro i _
    simp [ht0upd i]
  obtain ⟨t2, hrun, hsz, hnc, htb2, hnd2, hh2, hf2, hoc2, hmem2, _, hcov2⟩ :=
    @grow_loop_spec (k + 1) hk16 l t0 ht0sz
      (fun i _ => ht0upd i)
      (fun i j di dj hi => absurd (hi ▸ ht0upd i) (by simp))
      (fun i d hi => absurd (hi ▸ ht0upd i) (by simp))
      (fun i d hi => absurd (hi ▸ ht0upd i) (by simp))
      (by
        intro d hd
        obtain ⟨i, _, hdi⟩ := hmem_of d hd
        exact hh i d hdi)
      (by
        intro d _ i e hi
        exact absurd (hi ▸ ht0upd i) (by simp))
      (by
        rw [hl, List.filterMap_map, Function.id_comp]
        apply List.Pairwise.filterMap ct.hdesc ?_ (List.pairwise_lt_range ct.size)
        intro a b hab da hda db hdb ha
        have : a = b := hnd a b da db hda hdb ha
        omega)
      (by
        rw [filterMap_range_length, hocc0, ht0sz, Nat.pow_succ]
        have h1 : occupancy ct ≤ ct.size := by
          unfold occupancy
          calc List.countP (fun i => (ct.hdesc i).isSome) (List.range ct.size)
              ≤ (List.range ct.size).length := List.countP_le_length _
          _ = ct.size := List.length_range _
        rw [hk] at h1
        omega)
  refine ⟨t2, hrun, ?_, hnc, htb2, hnd2, hh2, hf2, ?_, ?_, ?_⟩
  · rw [hsz, ht0sz, hk, Nat.pow_succ]
    omega
  · rw [hoc2, hocc0, filterMap_range_length]
    omega
  · intro i d hdi
    have hilt : i < ct.size := by
      by_contra hc
      rw [htb i (by omega)] at hdi
      exact Option.noConfusion hdi
    exact hmem2 d (by
      rw [hl, List.mem_map]
      exact ⟨i, List.mem_range.mpr hilt, hdi⟩)
  · intro j d hdj
    rcases hcov2 j d hdj with hmem | ⟨i, hi⟩
    · exact hmem_of d hmem |>.imp fun i hi => hi.2
    · exact absurd (hi ▸ ht0upd i) (by simp)

/-!
## Specifications of condesc_add
-/

theorem condesc_init_ne (ct : ConTable) (h : ct.size ≠ 0) : condesc_init ct = ct := by
  unfold condesc_init
  rw [if_neg h]

theorem condesc_init_zero (ct : ConTable) (h : ct.size = 0) :
    (condesc_init ct).size = ct.num_con ∧ (condesc_init ct).num_con = 0 ∧
      ∀ j, (condesc_init ct).hdesc j = none := by
  unfold condesc_init
  rw [if_pos h]
  exact ⟨rfl, rfl, fun j => rfl⟩

theorem condesc_add_init (ct0 : ConTable) (s : List Char)
    (h : (condesc_init ct0).size ≠ 0) :
    condesc_add ct0 s = condesc_add (condesc_init ct0) s := by
  show _ = (let ct := condesc_init (condesc_init ct0)
    let hash := connector_str_hash s
    match condesc_find ct s hash with
    | none => (none, ct)
    | some i =>
      match ct.hdesc i with
      | some d => (some d, ct)
      | none =>
        match condesc_insert ct i s hash with
        | (none, ct2) => (none, ct2)
        | (some d, ct2) =>
          if 8 * ct2.num_con > 3 * ct2.size then
            match condesc_grow ct2 with
            | none => (none, ct2)
            | some ct3 =>
              match condesc_find ct3 s hash with
              | none => (none, ct3)
              | some j =>
                match ct3.hdesc j with
                | some d2 => (some d2, ct3)
                | none => (none, ct3)
          else (some d, ct2))
  rw [condesc_init_ne _ h]
  rfl

/-- Interning a string that is already in the table returns the stored
descriptor and leaves the table untouched. -/
theorem condesc_add_found {ct : ConTable} {s : List Char} {i : Nat} {d : condesc_t}
    (hsz : ct.size ≠ 0)
    (hfind : condesc_find ct s (connector_str_hash s) = some i)
    (hi : ct.hdesc i = some d) :
    condesc_add ct s = (some d, ct) := by
  simp only [condesc_add]
  rw [condesc_init_ne _ hsz, hfind]
  simp only []
  rw [hi]

/-- Counting-only specification of the reinsertion loop: a successful
run preserves `num_con` and adds exactly the reinserted descriptors to
the occupancy, with no assumption on the descriptors' strings. -/
theorem grow_loop_count {k : Nat} :
    ∀ (l : List (Option condesc_t)) (t t2 : ConTable),
    t.size = 2 ^ k → tbound t → grow_loop l t = some t2 →
    t2.size = t.size ∧ t2.num_con = t.num_con ∧ tbound t2 ∧
      occupancy t2 = occupancy t + (l.filterMap id).length := by
  intro l
  induction l with
  | nil =>
    intro t t2 hk htb hrun
    rw [show grow_loop [] t = some t from rfl, Option.some.injEq] at hrun
    subst hrun
    exact ⟨rfl, rfl, htb, by simp⟩
  | cons o rest ih =>
    intro t t2 hk htb hrun
    rcases o with _ | d
    · rw [grow_loop_none none rest t rfl] at hrun
      obtain ⟨h1, h2, h3, h4⟩ := ih t t2 hk htb hrun
      exact ⟨h1, h2, h3, by simpa using h4⟩
    · rcases hfq : condesc_find t d.string d.str_hash with _ | q
      · rw [show grow_loop (some d :: rest) t = (match condesc_find t d.string d.str_hash with
          | none => none
          | some j =>
            match t.hdesc j with
            | some _ => none
            | none => grow_loop rest
                { t with hdesc := fun m => if m = j then some d else t.hdesc m }) from rfl,
          hfq] at hrun
        exact Option.noConfusion hrun
      · rcases hq : t.hdesc q with _ | e
        · rw [grow_loop_step hfq hq] at hrun
          have hpos : 0 < t.size := size_pos_of_pow hk
          have hstart : d.str_hash &&& (t.size - 1) < t.size := by
            rw [and_mask_eq_mod hk]
            exact Nat.mod_lt _ hpos
          obtain ⟨m, _, hjq, _, _⟩ := probe_char hk d.string t.size _ q hstart hfq
          have hqlt : q < t.size := by
            rw [hjq]
            exact Nat.mod_lt _ hpos
          set t' : ConTable :=
            { t with hdesc := fun m => if m = q then some d else t.hdesc m } with ht'
          have hsz' : t'.size = t.size := rfl
          have htb' : tbound t' := by
            intro i hi
            rw [hsz'] at hi
            show (if i = q then some d else t.hdesc i) = none
            rw [if_neg (by intro he; omega)]
            exact htb i hi
          obtain ⟨h1, h2, h3, h4⟩ := ih t' t2 hk htb' hrun
          refine ⟨h1, h2, h3, ?_⟩
          have hocc' : occupancy t' = occupancy t + 1 :=
            occupancy_update_of rfl
              (fun m => (rfl : t'.hdesc m = if m = q then some d else t.hdesc m)) hq hqlt
          rw [h4, hocc']
          have hfm : ((some d :: rest).filterMap id) = d :: rest.filterMap id := rfl
          rw [hfm, List.length_cons]
          omega
        · rw [show grow_loop (some d :: rest) t = (match condesc_find t d.string d.str_hash with
            | none => none
            | some j =>
              match t.hdesc j with
              | some _ => none
              | none => grow_loop rest
                  { t with hdesc := fun m => if m = j then some d else t.hdesc m }) from rfl,
            hfq] at hrun
          simp only [] at hrun
          rw [hq] at hrun
          exact Option.noConfusion hrun

theorem condesc_grow_count {ct ct2 : ConTable} {k : Nat}
    (hk : ct.size = 2 ^ k) (hrun : condesc_grow ct = some ct2) :
    ct2.size = 2 * ct.size ∧ ct2.num_con = ct.num_con ∧ tbound ct2 ∧
      occupancy ct2 = occupancy ct := by
  have ht0sz : (condesc_table_alloc ct (ct.size * 2)).size = 2 ^ (k + 1) := by
    show ct.size * 2 = 2 ^ (k + 1)
    rw [hk, Nat.pow_succ]
  obtain ⟨h1, h2, h3, h4⟩ := @grow_loop_count (k + 1)
    ((List.range ct.size).map ct.hdesc) (condesc_table_alloc ct (ct.size * 2)) ct2
    ht0sz (fun i _ => rfl) hrun
  have hocc0 : occupancy (condesc_table_alloc ct (ct.size * 2)) = 0 := by
    unfold occupancy
    apply List.countP_eq_zero.mpr
    intro i _
    show ¬ ((none : Option condesc_t).isSome = true)
    simp
  refine ⟨?_, h2, h3, ?_⟩
  · rw [h1]
    show ct.size * 2 = 2 * ct.size
    omega
  · rw [h4, hocc0, filterMap_range_length]
    omega

/-- Counting and sizing facts about a successful intern: the power-of-two
capacity, the `num_con` = occupancy correspondence and the strict
occupancy bound are maintained, with no assumption about the stored
strings. -/
theorem condesc_add_count {ct ct2 : ConTable} {k : Nat} {s : List Char} {d : condesc_t}
    (hsz0 : ct.size ≠ 0) (hk : ct.size = 2 ^ k)
    (htb : tbound ct) (hcnt : ct.num_con = occupancy ct) (hocc : occupancy ct < ct.size)
    (hadd : condesc_add ct s = (some d, ct2)) :
    (∃ k2, ct2.size = 2 ^ k2) ∧ tbound ct2 ∧ ct2.num_con = occupancy ct2 ∧
      occupancy ct2 < ct2.size := by
  have hfsome : (condesc_find ct s (connector_str_hash s)).isSome :=
    condesc_find_isSome hk hocc _ _
  rcases hfq : condesc_find ct s (connector_str_hash s) with _ | i
  · rw [hfq] at hfsome
    exact absurd hfsome (by simp)
  have hpos : 0 < ct.size := size_pos_of_pow hk
  have hstart : connector_str_hash s &&& (ct.size - 1) < ct.size := by
    rw [and_mask_eq_mod hk]
    exact Nat.mod_lt _ hpos
  obtain ⟨m, _, hji, _, _⟩ := probe_char hk s ct.size _ i hstart hfq
  have hilt : i < ct.size := by
    rw [hji]
    exact Nat.mod_lt _ hpos
  rcases hv : ct.hdesc i with _ | e
  · rcases henc : calculate_connector_info (blank_condesc s (connector_str_hash s)) with _ | dn
    · simp only [condesc_add, condesc_init_ne _ hsz0, hfq, hv, condesc_insert, henc] at hadd
      rw [Prod.mk.injEq] at hadd
      exact absurd hadd.1 (by simp)
    · simp only [condesc_add, condesc_init_ne _ hsz0, hfq, hv, condesc_insert, henc] at hadd
      set ct' : ConTable := { ct with hdesc := fun j => if j = i then some dn else ct.hdesc j, num_con := ct.num_con + 1 } with hct'
      have hub : ∀ m, ct'.hdesc m = if m = i then some dn else ct.hdesc m := fun m => rfl
      have hsz' : ct'.size = ct.size := rfl
      have hnum0 : ct'.num_con = ct.num_con + 1 := rfl
      have hocc' : occupancy ct' = occupancy ct + 1 :=
        occupancy_update_of hsz' hub hv hilt
      have htb' : tbound ct' := by
        intro j hj
        rw [hsz'] at hj
        rw [hub j, if_neg (by intro he; omega)]
        exact htb j hj
      have hnum' : ct'.num_con = occupancy ct' := by
        rw [hnum0, hocc', hcnt]
      by_cases hgrow : 8 * ct'.num_con > 3 * ct'.size
      · rw [if_pos (by rw [hnum0, hsz'] at hgrow; exact hgrow)] at hadd
        rcases hg : condesc_grow ct' with _ | ct3
        · rw [show condesc_grow { ct with hdesc := fun j => if j = i then some dn else ct.hdesc j, num_con := ct.num_con + 1 } = (none : Option ConTable) from hg] at hadd
          rw [Prod.mk.injEq] at hadd
          exact absurd hadd.1 (by simp)
        · rw [show condesc_grow { ct with hdesc := fun j => if j = i then some dn else ct.hdesc j, num_con := ct.num_con + 1 } = some ct3 from hg] at hadd
          simp only [] at hadd
          obtain ⟨hg1, hg2, hg3, hg4⟩ := condesc_grow_count (hsz'.trans hk) hg
          have hct2 : ct2 = ct3 := by
            rcases hf3 : condesc_find ct3 s (connector_str_hash s) with _ | j
            · simp only [hf3] at hadd
              rw [Prod.mk.injEq] at hadd
              exact hadd.2.symm
            · simp only [hf3] at hadd
              rcases hv3 : ct3.hdesc j with _ | d3
              · simp only [hv3] at hadd
                rw [Prod.mk.injEq] at hadd
                exact hadd.2.symm
              · simp only [hv3] at hadd
                rw [Prod.mk.injEq] at hadd
                exact hadd.2.symm
          subst hct2
          refine ⟨⟨k + 1, by rw [hg1, hsz', hk, Nat.pow_succ]; omega⟩, hg3, ?_, ?_⟩
          · rw [hg2, hg4, hnum']
          · rw [hg4, hg1, hocc', hsz']
            omega
      · rw [if_neg (by rw [hnum0, hsz'] at hgrow; exact hgrow)] at hadd
        rw [Prod.mk.injEq] at hadd
        have hct2 : ct2 = ct' := hadd.2.symm
        subst hct2
        refine ⟨⟨k, hsz'.trans hk⟩, htb', hnum', ?_⟩
        rw [hocc', hsz']
        rw [hnum', hsz'] at hgrow
        rw [hocc'] at hgrow
        omega
  · simp only [condesc_add, condesc_init_ne _ hsz0, hfq, hv] at hadd
    rw [Prod.mk.injEq] at hadd
    have hct2 : ct2 = ct := hadd.2.symm
    subst hct2
    exact ⟨⟨k, hk⟩, htb, hcnt, hocc⟩

theorem calc_preserves {d d0 : condesc_t} (hc : calculate_connector_info d = some d0) :
    d0.string = d.string ∧ d0.str_hash = d.str_hash := by
  simp only [calculate_connector_info] at hc
  split at hc
  · exact absurd hc (by simp)
  split at hc
  · exact absurd hc (by simp)
  rw [Option.some.injEq] at hc
  subst hc
  exact ⟨rfl, rfl⟩

/-- Claim C2 (amended): when the encoder rejects a fresh string,
`condesc_add` reports the failure with a NULL return, but — contrary to
the original claim — the offending descriptor has already been created:
`condesc_insert` (connectors.h lines 333-343) stores it in the slot the
probe found, with the interned string and the 16-bit truncated hash
already set, and increments the occupancy count `num_con`, all BEFORE
calling `calculate_connector_info`.  So after the failed call the
previously empty probed slot is occupied by a descriptor carrying the
offending string, every other slot is unchanged, and both `num_con` and
the number of occupied slots have gone up by one: the stored-descriptor
set and the occupancy count differ from what they were before the call
(the conclusion asserts of the stored descriptor only the two fields
`condesc_insert` itself writes; the fields the in-place encoder touched
before giving up are outside the sources here). -/
theorem condesc_add_fail {ct : ConTable} {k : Nat} {s : List Char}
    (hsz0 : ct.size ≠ 0) (hk : ct.size = 2 ^ k)
    (hocc : occupancy ct < ct.size) (hnotin : strNotIn ct s)
    (hencf : calculate_connector_info (blank_condesc s (connector_str_hash s)) = none) :
    ∃ i, i < ct.size ∧ ct.hdesc i = none ∧
      condesc_find ct s (connector_str_hash s) = some i ∧
      (condesc_add ct s).1 = none ∧
      (condesc_add ct s).2.size = ct.size ∧
      (condesc_add ct s).2.num_con = ct.num_con + 1 ∧
      occupancy (condesc_add ct s).2 = occupancy ct + 1 ∧
      (∃ d, (condesc_add ct s).2.hdesc i = some d ∧
        d.string = s ∧ d.str_hash = connector_str_hash s % 2 ^ 16) ∧
      ∀ j, j ≠ i → (condesc_add ct s).2.hdesc j = ct.hdesc j := by
  have hfsome : (condesc_find ct s (connector_str_hash s)).isSome :=
    condesc_find_isSome hk hocc _ _
  rcases hfq : condesc_find ct s (connector_str_hash s) with _ | i
  · rw [hfq] at hfsome
    exact absurd hfsome (by simp)
  have hpos : 0 < ct.size := size_pos_of_pow hk
  have hstart : connector_str_hash s &&& (ct.size - 1) < ct.size := by
    rw [and_mask_eq_mod hk]
    exact Nat.mod_lt _ hpos
  obtain ⟨m, _, hji, _, hstop⟩ := probe_char hk s ct.size _ i hstart hfq
  have hilt : i < ct.size := by
    rw [hji]
    exact Nat.mod_lt _ hpos
  have hv : ct.hdesc i = none := by
    rcases hstop with hnone | ⟨e, he, hes⟩
    · exact hnone
    · exact absurd hes (hnotin i e he)
  have hred : condesc_add ct s =
      (none, { ct with hdesc := fun j => if j = i then some (blank_condesc s (connector_str_hash s)) else ct.hdesc j, num_con := ct.num_con + 1 }) := by
    simp only [condesc_add, condesc_init_ne _ hsz0, hfq, hv, condesc_insert, hencf]
  have hupd : ∀ m, (condesc_add ct s).2.hdesc m =
      if m = i then some (blank_condesc s (connector_str_hash s)) else ct.hdesc m := by
    intro m
    rw [hred]
  have hsz : (condesc_add ct s).2.size = ct.size := by rw [hred]
  refine ⟨i, hilt, hv, rfl, by rw [hred], hsz, by rw [hred],
    occupancy_update_of hsz hupd hv hilt,
    ⟨blank_condesc s (connector_str_hash s), ?_, rfl, rfl⟩,
    fun j hj => ?_⟩
  · rw [hupd i, if_pos rfl]
  · rw [hupd j, if_neg hj]

/-- Interning a fresh, encodable string under the full table invariants:
the new descriptor is returned and stored, the invariants (including
findability of every descriptor from its full string hash, and the
absence of duplicate strings) hold afterwards. -/
theorem condesc_add_insert {ct : ConTable} {k : Nat} {s : List Char} {dnew : condesc_t}
    (hsz0 : ct.size ≠ 0) (hk : ct.size = 2 ^ k) (hk15 : k ≤ 15)
    (htb : tbound ct) (hnd : nodupT ct) (hh : hashesT ct) (hf : findableT ct)
    (hcnt : ct.num_con = occupancy ct) (hocc : occupancy ct < ct.size)
    (hnotin : strNotIn ct s)
    (henc : calculate_connector_info (blank_condesc s (connector_str_hash s)) = some dnew) :
    ∃ ct2, condesc_add ct s = (some dnew, ct2) ∧
      ct2.size ≠ 0 ∧ (∃ k2, ct2.size = 2 ^ k2 ∧ k2 ≤ 16) ∧
      tbound ct2 ∧ nodupT ct2 ∧ hashesT ct2 ∧ findableT ct2 ∧
      ct2.num_con = occupancy ct2 ∧ occupancy ct2 < ct2.size ∧
      occupancy ct2 = occupancy ct + 1 ∧
      ∃ j, ct2.hdesc j = some dnew ∧
        condesc_find ct2 s (connector_str_hash s) = some j := by
  obtain ⟨hdnews, hdnewh⟩ := calc_preserves henc
  have hdnews' : dnew.string = s := hdnews
  have hdnewh' : dnew.str_hash = connector_str_hash dnew.string % 2 ^ 16 := by
    rw [hdnewh, hdnews']
    rfl
  have hfsome : (condesc_find ct s (connector_str_hash s)).isSome :=
    condesc_find_isSome hk hocc _ _
  rcases hfq : condesc_find ct s (connector_str_hash s) with _ | i
  · rw [hfq] at hfsome
    exact absurd hfsome (by simp)
  have hpos : 0 < ct.size := size_pos_of_pow hk
  have hstart : connector_str_hash s &&& (ct.size - 1) < ct.size := by
    rw [and_mask_eq_mod hk]
    exact Nat.mod_lt _ hpos
  obtain ⟨m, _, hji, _, hstop⟩ := probe_char hk s ct.size _ i hstart hfq
  have hilt : i < ct.size := by
    rw [hji]
    exact Nat.mod_lt _ hpos
  have hv : ct.hdesc i = none := by
    rcases hstop with hnone | ⟨e, he, hes⟩
    · exact hnone
    · exact absurd hes (hnotin i e he)
  have hred : condesc_add ct s =
      (if 8 * (ct.num_con + 1) > 3 * ct.size then
        match condesc_grow { ct with hdesc := fun j => if j = i then some dnew else ct.hdesc j, num_con := ct.num_con + 1 } with
        | none => (none, { ct with hdesc := fun j => if j = i then some dnew else ct.hdesc j, num_con := ct.num_con + 1 })
        | some ct3 =>
          match condesc_find ct3 s (connector_str_hash s) with
          | none => (none, ct3)
          | some j =>
            match ct3.hdesc j with
            | some d2 => (some d2, ct3)
            | none => (none, ct3)
      else (some dnew, { ct with hdesc := fun j => if j = i then some dnew else ct.hdesc j, num_con := ct.num_con + 1 })) := by
    simp only [condesc_add, condesc_init_ne _ hsz0, hfq, hv, condesc_insert, henc]
  set ct' : ConTable := { ct with hdesc := fun j => if j = i then some dnew else ct.hdesc j, num_con := ct.num_con + 1 } with hct'
  have hub : ∀ m, ct'.hdesc m = if m = i then some dnew else ct.hdesc m := fun m => rfl
  have hsz' : ct'.size = ct.size := rfl
  have hnum0 : ct'.num_con = ct.num_con + 1 := rfl
  have hocc' : occupancy ct' = occupancy ct + 1 := occupancy_update_of hsz' hub hv hilt
  have hk' : ct'.size = 2 ^ k := hsz'.trans hk
  have htb' : tbound ct' := by
    intro j hj
    rw [hsz'] at hj
    rw [hub j, if_neg (by intro he; omega)]
    exact htb j hj
  have hnd' : nodupT ct' := by
    intro a b da db ha hb hs2
    rw [hub a] at ha
    rw [hub b] at hb
    by_cases hai : a = i <;> by_cases hbi : b = i
    · omega
    · rw [if_pos hai, Option.some.injEq] at ha
      rw [if_neg hbi] at hb
      subst ha
      exact absurd (hdnews' ▸ hs2).symm (hnotin b db hb)
    · rw [if_neg hai] at ha
      rw [if_pos hbi, Option.some.injEq] at hb
      subst hb
      exact absurd (hdnews' ▸ hs2) (hnotin a da ha)
    · rw [if_neg hai] at ha
      rw [if_neg hbi] at hb
      exact hnd a b da db ha hb hs2
  have hh' : hashesT ct' := by
    intro a da ha
    rw [hub a] at ha
    by_cases hai : a = i
    · rw [if_pos hai, Option.some.injEq] at ha
      subst ha
      exact hdnewh'
    · rw [if_neg hai] at ha
      exact hh a da ha
  have hf' : findableT ct' := by
    intro a da ha
    rw [hub a] at ha
    by_cases hai : a = i
    · rw [if_pos hai, Option.some.injEq] at ha
      subst ha
      subst hai
      rw [hdnews']
      exact find_after_fill hk hsz' hub hv _ _ _ hfq (Or.inr ⟨rfl, hdnews'⟩)
    · rw [if_neg hai] at ha
      exact find_after_fill hk hsz' hub hv _ _ _ (hf a da ha) (Or.inl ⟨da, ha, rfl⟩)
  have hcnt' : ct'.num_con = occupancy ct' := by
    rw [hnum0, hocc', hcnt]
  by_cases hgrow : 8 * (ct.num_con + 1) > 3 * ct.size
  · rw [if_pos hgrow] at hred
    obtain ⟨ct3, hg, hg1, hg2, htb3, hnd3, hh3, hf3, hoc3, hmem3, _⟩ :=
      condesc_grow_spec hk' (by omega) htb' hnd' hh'
    obtain ⟨j, hj⟩ := hmem3 i dnew (by rw [hub i, if_pos rfl])
    have hfindj : condesc_find ct3 s (connector_str_hash s) = some j := by
      have := hf3 j dnew hj
      rwa [hdnews'] at this
    rw [show condesc_grow ct' = some ct3 from hg] at hred
    simp only [hfindj, hj] at hred
    refine ⟨ct3, hred, ?_, ⟨k + 1, ?_, by omega⟩, htb3, hnd3, hh3, hf3, ?_, ?_, ?_, j, hj, hfindj⟩
    · rw [hg1, hsz', hk]
      positivity
    · rw [hg1, hsz', hk, Nat.pow_succ]
      omega
    · rw [hg2, hoc3, hnum0, hocc', hcnt]
    · rw [hoc3, hocc', hg1, hsz']
      omega
    · rw [hoc3, hocc']
  · rw [if_neg hgrow] at hred
    refine ⟨ct', hred, ?_, ⟨k, hk', by omega⟩, htb', hnd', hh', hf', hcnt', ?_, hocc', i, ?_, ?_⟩
    · rw [hsz']
      exact hsz0
    · rw [hocc', hsz']
      rw [hcnt] at hgrow
      omega
    · rw [hub i, if_pos rfl]
    · exact find_after_fill hk hsz' hub hv _ _ _ hfq (Or.inr ⟨rfl, hdnews'⟩)

/-!
## Symbolic evaluation of the table operations on small populations
-/

theorem grow_loop_all_none : ∀ (l : List (Option condesc_t)) (t : ConTable),
    (∀ x ∈ l, x = none) → grow_loop l t = some t
  | [], _, _ => rfl
  | o :: rest, t, h => by
    have ho : o = none := h o (List.mem_cons_self _ _)
    rw [grow_loop_none o rest t ho]
    exact grow_loop_all_none rest t (fun x hx => h x (List.mem_cons_of_mem _ hx))

theorem grow_loop_append : ∀ (l1 l2 : List (Option condesc_t)) (t : ConTable),
    grow_loop (l1 ++ l2) t = (grow_loop l1 t).bind (grow_loop l2)
  | [], l2, t => rfl
  | none :: rest, l2, t => by
    rw [List.cons_append, grow_loop_none _ _ _ rfl, grow_loop_none _ _ _ rfl]
    exact grow_loop_append rest l2 t
  | some d :: rest, l2, t => by
    rw [List.cons_append]
    show (match condesc_find t d.string d.str_hash with
      | none => none
      | some j =>
        match t.hdesc j with
        | some _ => none
        | none => grow_loop (rest ++ l2)
            { t with hdesc := fun m => if m = j then some d else t.hdesc m }) =
      ((match condesc_find t d.string d.str_hash with
        | none => none
        | some j =>
          match t.hdesc j with
          | some _ => none
          | none => grow_loop rest
              { t with hdesc := fun m => if m = j then some d else t.hdesc m }) :
        Option ConTable).bind (grow_loop l2)
    rcases hfind : condesc_find t d.string d.str_hash with _ | j
    · simp [hfind]
    · simp only [hfind]
      rcases hv : t.hdesc j with _ | e
      · simp only [hv]
        exact grow_loop_append rest l2 _
      · simp [hv]

/-- A single-descriptor slot array decomposes into nones around the one
occupied slot. -/
theorem map_single_split {p : Nat} {d : condesc_t}
    (f : Nat → Option condesc_t) (hf : ∀ j, f j = if j = p then some d else none) :
    ∀ n, p < n →
    ∃ A B : List (Option condesc_t),
      (List.range n).map f = A ++ some d :: B ∧
      (∀ x ∈ A, x = none) ∧ (∀ x ∈ B, x = none) := by
  intro n
  induction n with
  | zero => intro hp; omega
  | succ n ih =>
    intro hp
    rw [List.range_succ, List.map_append]
    by_cases hpn : p = n
    · refine ⟨(List.range n).map f, [], ?_, ?_, ?_⟩
      · show _ ++ [f n] = _
        rw [hf n, if_pos hpn.symm]
      · intro x hx
        rw [List.mem_map] at hx
        obtain ⟨j, hj, hfj⟩ := hx
        rw [List.mem_range] at hj
        rw [← hfj, hf j, if_neg (by omega)]
      · intro x hx
        exact absurd hx (List.not_mem_nil x)
    · obtain ⟨A, B, hsplit, hA, hB⟩ := ih (by omega)
      refine ⟨A, B ++ [f n], ?_, hA, ?_⟩
      · rw [hsplit]
        simp [List.append_assoc]
      · intro x hx
        rcases List.mem_append.mp hx with hx | hx
        · exact hB x hx
        · rw [List.mem_singleton] at hx
          rw [hx, hf n, if_neg (by omega)]

theorem condesc_find_empty {t : ConTable} (hpos : 0 < t.size)
    (hempty : ∀ j, t.hdesc j = none) (s : List Char) (h : Nat) :
    condesc_find t s h = some (h &&& (t.size - 1)) := by
  unfold condesc_find
  rcases hsz : t.size with _ | n
  · omega
  · rw [probe_succ, hempty _]

/-- Growing a table holding exactly one descriptor moves it to the slot
addressed by its stored 16-bit hash masked by the doubled capacity. -/
theorem condesc_grow_single {ct : ConTable} {p : Nat} {d : condesc_t}
    (hp : p < ct.size)
    (hsingle : ∀ j, ct.hdesc j = if j = p then some d else none) :
    condesc_grow ct = some
      { hdesc := fun j => if j = d.str_hash &&& (ct.size * 2 - 1) then some d else none,
        size := ct.size * 2, num_con := ct.num_con } := by
  obtain ⟨A, B, hsplit, hA, hB⟩ := map_single_split ct.hdesc hsingle ct.size hp
  show grow_loop ((List.range ct.size).map ct.hdesc)
    (condesc_table_alloc ct (ct.size * 2)) = _
  rw [hsplit, grow_loop_append, grow_loop_all_none A _ hA]
  show grow_loop (some d :: B) (condesc_table_alloc ct (ct.size * 2)) = _
  have hpos2 : 0 < (condesc_table_alloc ct (ct.size * 2)).size := by
    show 0 < ct.size * 2
    omega
  have hempty2 : ∀ j, (condesc_table_alloc ct (ct.size * 2)).hdesc j = none := fun j => rfl
  rw [grow_loop_step (condesc_find_empty hpos2 hempty2 d.string d.str_hash) (hempty2 _)]
  rw [grow_loop_all_none B _ hB]
  rfl

/-- Interning an encodable string into an empty table with room: the
descriptor lands at the slot addressed by the full hash masked by the
capacity, and no growth is triggered. -/
theorem condesc_add_empty {ct : ConTable} {s : List Char} {dnew : condesc_t}
    (hpos : 3 ≤ ct.size) (hnum : ct.num_con = 0)
    (hempty : ∀ j, ct.hdesc j = none)
    (henc : calculate_connector_info (blank_condesc s (connector_str_hash s)) = some dnew) :
    condesc_add ct s =
      (some dnew,
        { ct with hdesc := fun j => if j = connector_str_hash s &&& (ct.size - 1) then some dnew else ct.hdesc j, num_con := ct.num_con + 1 }) := by
  have hsz0 : ct.size ≠ 0 := by omega
  have hfq : condesc_find ct s (connector_str_hash s) =
      some (connector_str_hash s &&& (ct.size - 1)) :=
    condesc_find_empty (by omega) hempty s _
  have hv : ct.hdesc (connector_str_hash s &&& (ct.size - 1)) = none := hempty _
  simp only [condesc_add, condesc_init_ne _ hsz0, hfq, hv, condesc_insert, henc]
  rw [if_neg (by rw [hnum]; omega)]

/-!
## The claims
-/

theorem stripMarker_cons_lower {c : Char} (r : List Char) (h : c_islower c = true) :
    stripMarker (c :: r) = (some c, r) := by
  simp [stripMarker, h]

/-- Claim C5: both forms of the match predicate are symmetric in their
two arguments: `easy_match s t = easy_match t s` for all connector
strings, and `easy_match_desc c1 c2 = easy_match_desc c2 c1` for all
descriptors. -/
theorem match_predicate_symmetric :
    (∀ s t : List Char, easy_match s t = easy_match t s) ∧
    (∀ c1 c2 : condesc_t, easy_match_desc c1 c2 = easy_match_desc c2 c1) :=
  ⟨easy_match_symm, easy_match_desc_symm⟩

/-- Claim C6: a pair of connectors is incompatible when both sides carry
the same leading head/dependent marker ('h'-'h' and 'd'-'d' fail, for
every core and suffix, in both the raw-string form and the descriptor
form), the marker check accepts a mixed or absent marker ('h'-'d' falls
through to the core/suffix comparison), and concretely "hAB" matches
"dAB", "hAB" does not match "hAB", and unmarked "AB" matches both "hAB"
and "dAB", in both forms. -/
theorem head_dependent_exclusion :
    (∀ r1 r2 : List Char, easy_match ('h' :: r1) ('h' :: r2) = false) ∧
    (∀ r1 r2 : List Char, easy_match ('d' :: r1) ('d' :: r2) = false) ∧
    (∀ r1 r2 : List Char, easy_match ('h' :: r1) ('d' :: r2) = ucLoop r1 r2) ∧
    (∀ r1 r2 : List Char, easy_match ('d' :: r1) ('h' :: r2) = ucLoop r1 r2) ∧
    (∀ c1 c2 : condesc_t,
      easy_match_desc { c1 with head_dependent := 'h' }
        { c2 with head_dependent := 'h' } = false) ∧
    (∀ c1 c2 : condesc_t,
      easy_match_desc { c1 with head_dependent := 'd' }
        { c2 with head_dependent := 'd' } = false) ∧
    easy_match "hAB".toList "dAB".toList = true ∧
    easy_match "hAB".toList "hAB".toList = false ∧
    easy_match "AB".toList "hAB".toList = true ∧
    easy_match "AB".toList "dAB".toList = true ∧
    easy_match_desc (encDesc "hAB".toList) (encDesc "dAB".toList) = true ∧
    easy_match_desc (encDesc "hAB".toList) (encDesc "hAB".toList) = false ∧
    easy_match_desc (encDesc "AB".toList) (encDesc "hAB".toList) = true ∧
    easy_match_desc (encDesc "AB".toList) (encDesc "dAB".toList) = true := by
  have hmm : ∀ (a b : Char) (r1 r2 : List Char), c_islower a = true → c_islower b = true →
      easy_match (a :: r1) (b :: r2) =
        if a = b then false else ucLoop r1 r2 := by
    intro a b r1 r2 ha hb
    unfold easy_match
    rw [stripMarker_cons_lower r1 ha, stripMarker_cons_lower r2 hb]
  have hdesc : ∀ (hd : Char) (c1 c2 : condesc_t), hd ≠ nulChar →
      easy_match_desc { c1 with head_dependent := hd }
        { c2 with head_dependent := hd } = false := by
    intro hd c1 c2 hne
    unfold easy_match_desc lc_easy_match
    by_cases hn : ({ c1 with head_dependent := hd } : condesc_t).uc_num =
        ({ c2 with head_dependent := hd } : condesc_t).uc_num
    · rw [if_neg (by simpa using hn)]
      by_cases hb : (c1.lc_letters ^^^ c2.lc_letters) &&& c1.lc_mask &&& c2.lc_mask = 0
      · rw [if_neg (by simpa using hb)]
        rw [if_pos (by simp [hne])]
      · rw [if_pos (by simpa using hb)]
    · rw [if_pos (by simpa using hn)]
  refine ⟨?_, ?_, ?_, ?_, ?_, ?_, by decide, by decide, by decide, by decide,
    by decide, by decide, by decide, by decide⟩
  · intro r1 r2
    rw [hmm 'h' 'h' r1 r2 (by decide) (by decide), if_pos rfl]
  · intro r1 r2
    rw [hmm 'd' 'd' r1 r2 (by decide) (by decide), if_pos rfl]
  · intro r1 r2
    rw [hmm 'h' 'd' r1 r2 (by decide) (by decide), if_neg (by decide)]
  · intro r1 r2
    rw [hmm 'd' 'h' r1 r2 (by decide) (by decide), if_neg (by decide)]
  · intro c1 c2
    exact hdesc 'h' c1 c2 (by decide)
  · intro c1 c2
    exact hdesc 'd' c1 c2 (by decide)

/-- Claim C7: the lowercase-suffix walk proceeds only while both sides
still have characters, so a shorter suffix that is a prefix of the
longer one is compatible (in either argument order), and concretely
"AB" matches "ABx", "ABx" matches "AB*", and "ABx" does not match
"ABy". -/
theorem suffix_prefix_compatibility :
    (∀ a r : List Char, lcLoop a (a ++ r) = true) ∧
    (∀ a r : List Char, lcLoop (a ++ r) a = true) ∧
    easy_match "AB".toList "ABx".toList = true ∧
    easy_match "ABx".toList "AB*".toList = true ∧
    easy_match "ABx".toList "ABy".toList = false :=
  ⟨lcLoop_self_append, lcLoop_append_self, by decide, by decide, by decide⟩

/-- Witness for claim C1: the equivalence instantiated at the concrete
well-formed connector strings "hAB" and "dABx" with their
pipeline-encoded descriptors (which share one upper-case core group). -/
theorem easy_match_desc_eq_easy_match_witness :
    easy_match_desc (encDesc "hAB".toList) (encDesc "dABx".toList) =
      easy_match "hAB".toList "dABx".toList ∧
    easy_match "hAB".toList "dABx".toList = true :=
  ⟨easy_match_desc_eq_easy_match "hAB".toList "dABx".toList
      (encDesc "hAB".toList) (encDesc "dABx".toList)
      ⟨Or.inl rfl, by decide, by decide, by decide⟩
      ⟨Or.inr rfl, by decide, by decide, by decide⟩
      ⟨encDesc "hAB".toList, by decide, rfl, rfl, rfl⟩
      ⟨encDesc "dABx".toList, by decide, rfl, rfl, rfl⟩
      (Iff.intro (fun _ => by decide) (fun _ => by decide)),
    by decide⟩

/-- Counterexample to claim C2 as stated: encoding the malformed string
"Aabcdefghij" (10-letter lowercase suffix, one more than the 9 the
64-bit packed field supports) fails, and interning it into an empty
4-slot table does return NULL — but the offending descriptor IS
created: the probed slot now holds a descriptor carrying that very
string, and the occupancy count went from 0 to 1, so neither the set of
descriptors stored in the table nor its occupancy count is the same
after the failed call as before it. -/
theorem condesc_add_fail_counterexample :
    calculate_connector_info
      (blank_condesc badSuffixCon (connector_str_hash badSuffixCon)) = none ∧
    (condesc_add ctEmpty4 badSuffixCon).1 = none ∧
    ctEmpty4.num_con = 0 ∧
    (condesc_add ctEmpty4 badSuffixCon).2.num_con = 1 ∧
    Option.map condesc_t.string
      ((condesc_add ctEmpty4 badSuffixCon).2.hdesc
        (connector_str_hash badSuffixCon &&& 3)) = some badSuffixCon := by
  refine ⟨?_, ?_, rfl, ?_, ?_⟩ <;> decide

/-- Witness for claim C2 (amended): the failure behavior at the
concrete malformed string and empty 4-slot table. -/
theorem condesc_add_fail_witness :
    (condesc_add ctEmpty4 badSuffixCon).1 = none ∧
    (condesc_add ctEmpty4 badSuffixCon).2.num_con = ctEmpty4.num_con + 1 ∧
    occupancy (condesc_add ctEmpty4 badSuffixCon).2 = occupancy ctEmpty4 + 1 := by
  obtain ⟨i, _, _, _, h1, _, h2, h3, _, _⟩ :=
    @condesc_add_fail ctEmpty4 2 badSuffixCon
      (by decide) rfl (by decide)
      (fun i d h => Option.noConfusion h) (by decide)
  exact ⟨h1, h2, h3⟩

/-- Claim C4 (amended): for every well-formed table state within the
16-bit stored-hash range and every string whose encoding succeeds, two
calls to `condesc_add` return the identical descriptor (the second call
finds the descriptor the first call stored or found, and leaves the
table untouched), and the table never holds two distinct descriptors
with equal strings.  (As stated the claim fails for strings the encoder
rejects: the first call returns NULL while the second returns the
half-initialized descriptor the first call left behind.) -/
theorem intern_idempotent {ct : ConTable} {k : Nat} {s : List Char}
    (hsz0 : ct.size ≠ 0) (hk : ct.size = 2 ^ k) (hk15 : k ≤ 15)
    (htb : tbound ct) (hnd : nodupT ct) (hh : hashesT ct) (hf : findableT ct)
    (hcnt : ct.num_con = occupancy ct) (hocc : occupancy ct < ct.size)
    (henc : (calculate_connector_info (blank_condesc s (connector_str_hash s))).isSome) :
    ∃ d ct2, condesc_add ct s = (some d, ct2) ∧
      condesc_add ct2 s = (some d, ct2) ∧ nodupT ct2 := by
  by_cases hpresent : ∃ i di, ct.hdesc i = some di ∧ di.string = s
  · obtain ⟨i, di, hdi, hdis⟩ := hpresent
    have hfind : condesc_find ct s (connector_str_hash s) = some i := by
      have := hf i di hdi
      rwa [hdis] at this
    have h1 := condesc_add_found hsz0 hfind hdi
    exact ⟨di, ct, h1, h1, hnd⟩
  · have hnotin : strNotIn ct s := fun i d hd hs => hpresent ⟨i, d, hd, hs⟩
    rcases hv : calculate_connector_info (blank_condesc s (connector_str_hash s))
      with _ | dnew
    · rw [hv] at henc
      exact absurd henc (by simp)
    obtain ⟨ct2, hadd, hsz2, _, _, hnd2, _, _, _, _, _, j, hj, hfindj⟩ :=
      condesc_add_insert hsz0 hk hk15 htb hnd hh hf hcnt hocc hnotin hv
    exact ⟨dnew, ct2, hadd, condesc_add_found hsz2 hfindj hj, hnd2⟩

/-- Counterexample to claim C4 as stated: for the malformed string
"Aabcdefghij" (whose encoding fails), two consecutive `condesc_add`
calls on an empty 4-slot table do NOT return the identical descriptor:
the first returns NULL while the second finds and returns the
half-initialized descriptor left behind by the first. -/
theorem intern_idempotent_counterexample :
    (condesc_add ctEmpty4 badSuffixCon).1 = none ∧
    ((condesc_add (condesc_add ctEmpty4 badSuffixCon).2 badSuffixCon).1).isSome = true := by
  refine ⟨?_, ?_⟩ <;> decide

/-- Witness for claim C4 (amended): interning "AB" twice into an empty
4-slot table returns the same descriptor both times. -/
theorem intern_idempotent_witness :
    ((condesc_add ctEmpty4 "AB".toList).1).isSome = true ∧
    (condesc_add (condesc_add ctEmpty4 "AB".toList).2 "AB".toList).1 =
      (condesc_add ctEmpty4 "AB".toList).1 := by
  obtain ⟨d, ct2, h1, h2, _⟩ :=
    @intern_idempotent ctEmpty4 2 ("AB".toList)
      (by decide) rfl (by decide)
      (fun i _ => rfl) (fun i j di dj hi => Option.noConfusion hi)
      (fun i d h => Option.noConfusion h) (fun i d h => Option.noConfusion h)
      (by decide) (by decide) (by decide)
  rw [h1, h2]
  exact ⟨rfl, rfl⟩

/-- Claim C3 (amended): for every invariant-satisfying table whose
DOUBLED capacity still divides `2 ^ 16` (the width of the stored
`str_hash` field), growth succeeds and preserves membership: a
subsequent intern of any stored descriptor's string finds it and
returns the same descriptor, leaving the grown table unchanged; the
invariants are re-established, so the argument iterates over any number
of growths within that range.  (As stated the claim fails once the
doubled capacity exceeds `2 ^ 16`, because growth reinserts from the
16-bit truncated stored hash while a fresh intern probes from the full
hash.) -/
theorem growth_preserves_membership {ct : ConTable} {k : Nat}
    (hk : ct.size = 2 ^ k) (hk15 : k + 1 ≤ 16)
    (htb : tbound ct) (hnd : nodupT ct) (hh : hashesT ct) :
    ∃ ct2, condesc_grow ct = some ct2 ∧
      ct2.size = 2 * ct.size ∧ tbound ct2 ∧ nodupT ct2 ∧ hashesT ct2 ∧
      ∀ i d, ct.hdesc i = some d → condesc_add ct2 d.string = (some d, ct2) := by
  obtain ⟨ct2, hg, hsz, _, htb2, hnd2, hh2, hf2, _, hmem, _⟩ :=
    condesc_grow_spec hk hk15 htb hnd hh
  refine ⟨ct2, hg, hsz, htb2, hnd2, hh2, ?_⟩
  intro i d hd
  obtain ⟨j, hj⟩ := hmem i d hd
  have hsz2 : ct2.size ≠ 0 := by
    rw [hsz, hk]
    positivity
  exact condesc_add_found hsz2 (hf2 j d hj) hj

/-- Witness for claim C3 (amended): growing the concrete one-descriptor
4-slot table succeeds, and re-interning the stored string in the grown
table returns the very same descriptor. -/
theorem growth_preserves_membership_witness :
    (condesc_grow ctW3).isSome = true ∧
    (condesc_add ((condesc_grow ctW3).getD ctW3)
      ((encDesc ("B".toList)).string)).1 = some (encDesc ("B".toList)) := by
  have hadd1 : condesc_add ctEmpty4 ("B".toList) =
      (some (encDesc ("B".toList)),
        { ctEmpty4 with hdesc := fun j => if j = connector_str_hash ("B".toList) &&& (ctEmpty4.size - 1) then some (encDesc ("B".toList)) else ctEmpty4.hdesc j, num_con := ctEmpty4.num_con + 1 }) :=
    condesc_add_empty (by decide) rfl (fun j => rfl) (by decide)
  have hsingle : ∀ j, ctW3.hdesc j =
      if j = 2 then some (encDesc ("B".toList)) else none := by
    intro j
    show ((condesc_add ctEmpty4 ("B".toList)).2).hdesc j = _
    rw [hadd1]
    show (if j = connector_str_hash ("B".toList) &&& (ctEmpty4.size - 1)
        then some (encDesc ("B".toList)) else ctEmpty4.hdesc j) = _
    rw [show connector_str_hash ("B".toList) &&& (ctEmpty4.size - 1) = 2 from by decide]
    rfl
  have hkW : ctW3.size = 2 ^ 2 := by
    show ((condesc_add ctEmpty4 ("B".toList)).2).size = 2 ^ 2
    rw [hadd1]
    rfl
  have htbW : tbound ctW3 := by
    intro i hi
    rw [hkW] at hi
    rw [hsingle i, if_neg (by omega)]
  have hndW : nodupT ctW3 := by
    intro i j di dj hi hj _
    rw [hsingle i] at hi
    rw [hsingle j] at hj
    by_cases h2i : i = 2 <;> by_cases h2j : j = 2
    · omega
    · rw [if_neg h2j] at hj
      exact Option.noConfusion hj
    · rw [if_neg h2i] at hi
      exact Option.noConfusion hi
    · rw [if_neg h2i] at hi
      exact Option.noConfusion hi
  have hhW : hashesT ctW3 := by
    intro i d hi
    rw [hsingle i] at hi
    by_cases h2i : i = 2
    · rw [if_pos h2i, Option.some.injEq] at hi
      subst hi
      decide
    · rw [if_neg h2i] at hi
      exact Option.noConfusion hi
  obtain ⟨ct2, hg, _, _, _, _, hintern⟩ :=
    @growth_preserves_membership ctW3 2 hkW (by omega) htbW hndW hhW
  have hstored : ctW3.hdesc 2 = some (encDesc ("B".toList)) := by
    rw [hsingle 2, if_pos rfl]
  refine ⟨by rw [hg]; rfl, ?_⟩
  rw [hg]
  show (condesc_add ct2 ((encDesc ("B".toList)).string)).1 = _
  rw [hintern 2 (encDesc ("B".toList)) hstored]

theorem condesc_find_single {t : ConTable} {p : Nat} {d : condesc_t}
    (hpos : 0 < t.size) (hsingle : ∀ j, t.hdesc j = if j = p then some d else none)
    (s : List Char) (h : Nat) (hne : h &&& (t.size - 1) ≠ p) :
    condesc_find t s h = some (h &&& (t.size - 1)) := by
  unfold condesc_find
  rcases hsz : t.size with _ | n
  · omega
  · rw [hsz] at hne
    rw [probe_succ, hsingle _, if_neg hne]

/-- Interning an encodable fresh string into a one-descriptor table
whose probe start misses the occupied slot: the new descriptor lands at
the masked full-hash slot and no growth is triggered while the load
stays within the 3/8 threshold. -/
theorem condesc_add_single {t : ConTable} {p : Nat} {d dnew : condesc_t} {s : List Char}
    (_hbase : 3 ≤ t.size)
    (hsingle : ∀ j, t.hdesc j = if j = p then some d else none)
    (hnum : t.num_con = 1)
    (hne : connector_str_hash s &&& (t.size - 1) ≠ p)
    (hbig : 16 ≤ 3 * t.size)
    (henc : calculate_connector_info (blank_condesc s (connector_str_hash s)) = some dnew) :
    condesc_add t s =
      (some dnew,
        { t with hdesc := fun j => if j = connector_str_hash s &&& (t.size - 1) then some dnew else t.hdesc j, num_con := t.num_con + 1 }) := by
  have hsz0 : t.size ≠ 0 := by omega
  have hfq : condesc_find t s (connector_str_hash s) =
      some (connector_str_hash s &&& (t.size - 1)) :=
    condesc_find_single (by omega) hsingle s _ hne
  have hv : t.hdesc (connector_str_hash s &&& (t.size - 1)) = none := by
    rw [hsingle _, if_neg hne]
  simp only [condesc_add, condesc_init_ne _ hsz0, hfq, hv, condesc_insert, henc]
  rw [if_neg (by rw [hnum]; omega)]

/-- Counterexample to claim C3 as stated: intern "A" (full Jenkins hash
2181104624, which has bit 16 set) into a table with capacity hint
2^16; the descriptor lands in slot 1008 = hash mod 2^16.  Growing the
table to 2^17 slots reinserts it from its stored 16-bit hash, again at
slot 1008, but a subsequent intern of the same string probes from the
full hash at slot 66544, finds it empty, and instead of returning the
stored descriptor inserts a duplicate: the occupancy count rises from 1
to 2. -/
theorem growth_preserves_membership_counterexample :
    (condesc_add cexHint ("A".toList)).1 = some (encDesc ("A".toList)) ∧
    cexT1.num_con = 1 ∧
    condesc_grow cexT1 = some cexT2 ∧
    cexFreshSlot = none ∧
    cexRecount = 2 := by
  have hadd1 : condesc_add cexHint ("A".toList) =
      condesc_add (condesc_init cexHint) ("A".toList) :=
    condesc_add_init _ _ (by decide)
  have haddE : condesc_add (condesc_init cexHint) ("A".toList) =
      (some (encDesc ("A".toList)),
        { condesc_init cexHint with hdesc := fun j => if j = connector_str_hash ("A".toList) &&& ((condesc_init cexHint).size - 1) then some (encDesc ("A".toList)) else (condesc_init cexHint).hdesc j, num_con := (condesc_init cexHint).num_con + 1 }) :=
    condesc_add_empty (by decide) rfl (fun j => rfl) (by decide)
  have hsingle1 : ∀ j, cexT1.hdesc j =
      if j = 1008 then some (encDesc ("A".toList)) else none := by
    intro j
    show ((condesc_add cexHint ("A".toList)).2).hdesc j = _
    rw [hadd1, haddE]
    show (if j = connector_str_hash ("A".toList) &&& ((condesc_init cexHint).size - 1)
        then some (encDesc ("A".toList)) else (condesc_init cexHint).hdesc j) = _
    rw [show connector_str_hash ("A".toList) &&& ((condesc_init cexHint).size - 1) = 1008
      from by decide]
    rfl
  have hgrow : condesc_grow cexT1 = some cexT2 :=
    condesc_grow_single (by decide) hsingle1
  have hsingle2 : ∀ j, cexT2.hdesc j =
      if j = 1008 then some (encDesc ("A".toList)) else none := by
    intro j
    show (if j = (encDesc ("A".toList)).str_hash &&& (cexT1.size * 2 - 1)
        then some (encDesc ("A".toList)) else none) = _
    rw [show (encDesc ("A".toList)).str_hash &&& (cexT1.size * 2 - 1) = 1008 from by decide]
  refine ⟨?_, ?_, hgrow, ?_, ?_⟩
  · rw [hadd1, haddE]
  · show ((condesc_add cexHint ("A".toList)).2).num_con = 1
    rw [hadd1, haddE]
    rfl
  · show cexT2.hdesc (connector_str_hash ("A".toList) &&& (cexT1.size * 2 - 1)) = none
    rw [hsingle2 _, if_neg (by decide)]
  · show (condesc_add cexT2 ("A".toList)).2.num_con = 2
    rw [condesc_add_single (by decide) hsingle2 (by decide) (by decide) (by decide)
      (show calculate_connector_info
          (blank_condesc ("A".toList) (connector_str_hash ("A".toList))) =
        some (encDesc ("A".toList)) from by decide)]
    decide

theorem occupancy_empty {ct : ConTable} (h : ∀ j, ct.hdesc j = none) :
    occupancy ct = 0 := by
  unfold occupancy
  apply List.countP_eq_zero.mpr
  intro i _
  rw [h i]
  simp

/-- Claim C8: on the first intern into a capacity-zero table the
capacity is initialized to exactly the caller-supplied hint read from
`num_con`, which is then reset to zero; every probe index is computed as
`hash & (capacity - 1)`, so under the power-of-two precondition the
start index and every index a probe returns lie within bounds; and
growth doubles a power-of-two capacity to the next power of two. -/
theorem first_intern_capacity :
    (∀ ct0 : ConTable, ct0.size = 0 →
      (condesc_init ct0).size = ct0.num_con ∧ (condesc_init ct0).num_con = 0) ∧
    (∀ (ct : ConTable) (k : Nat), ct.size = 2 ^ k →
      ∀ hash : Nat, hash &&& (ct.size - 1) < ct.size) ∧
    (∀ (ct : ConTable) (k : Nat), ct.size = 2 ^ k →
      ∀ (s : List Char) (i fuel j : Nat), i < ct.size →
        probe ct s i fuel = some j → j < ct.size) ∧
    (∀ (ct ct2 : ConTable) (k : Nat), ct.size = 2 ^ k →
      condesc_grow ct = some ct2 → ct2.size = 2 ^ (k + 1)) := by
  refine ⟨?_, ?_, ?_, ?_⟩
  · intro ct0 h
    exact ⟨(condesc_init_zero ct0 h).1, (condesc_init_zero ct0 h).2.1⟩
  · intro ct k hk hash
    rw [and_mask_eq_mod hk]
    exact Nat.mod_lt _ (size_pos_of_pow hk)
  · intro ct k hk s i fuel j hi hp
    obtain ⟨m, _, hj, _, _⟩ := probe_char hk s fuel i j hi hp
    rw [hj]
    exact Nat.mod_lt _ (size_pos_of_pow hk)
  · intro ct ct2 k hk hg
    obtain ⟨h1, _, _, _⟩ := condesc_grow_count hk hg
    rw [h1, hk, Nat.pow_succ]
    omega

/-- Witness for claim C8: the capacity-hint consumption, the probe-index
bound, and the doubling at concrete tables, hash values and probes. -/
theorem first_intern_capacity_witness :
    ((condesc_init ctHint8).size = ctHint8.num_con ∧ (condesc_init ctHint8).num_con = 0) ∧
    connector_str_hash ("AB".toList) &&& (ctEmpty4.size - 1) < ctEmpty4.size ∧
    (1 : Nat) < ctEmpty4.size ∧
    ((condesc_grow ctEmpty4).getD ctEmpty4).size = 2 ^ 3 := by
  refine ⟨first_intern_capacity.1 ctHint8 rfl, ?_, ?_, ?_⟩
  · exact first_intern_capacity.2.1 ctEmpty4 2 rfl (connector_str_hash ("AB".toList))
  · exact first_intern_capacity.2.2.1 ctEmpty4 2 rfl ("A".toList) 1 4 1 (by decide) (by decide)
  · have hga : condesc_grow ctEmpty4 = some (condesc_table_alloc ctEmpty4 8) := by
      show grow_loop ((List.range ctEmpty4.size).map ctEmpty4.hdesc)
        (condesc_table_alloc ctEmpty4 (ctEmpty4.size * 2)) = _
      have hnone : ∀ x ∈ (List.range ctEmpty4.size).map ctEmpty4.hdesc, x = none := by
        intro x hx
        rw [List.mem_map] at hx
        obtain ⟨i, _, hfi⟩ := hx
        exact hfi.symm
      rw [grow_loop_all_none _ _ hnone]
      rfl
    rw [hga, Option.getD_some]
    exact first_intern_capacity.2.2.2 ctEmpty4 (condesc_table_alloc ctEmpty4 8) 2 rfl hga

/-- Claim C9: starting from a pre-init state whose capacity hint is a
power of two (hence at least 1), or from any reachable table state
(power-of-two capacity, `num_con` equal to the occupancy, occupancy
strictly below capacity), every successful `condesc_add` re-establishes
that state with occupancy still strictly below capacity, so the table
keeps an empty slot and `condesc_find` terminates on every lookup. -/
theorem intern_keeps_room {ct ct2 : ConTable} {s : List Char} {d : condesc_t}
    (hstate : (ct.size = 0 ∧ (∃ k, ct.num_con = 2 ^ k) ∧ ∀ j, ct.hdesc j = none) ∨
      ((∃ k, ct.size = 2 ^ k) ∧ tbound ct ∧ ct.num_con = occupancy ct ∧
        occupancy ct < ct.size))
    (hadd : condesc_add ct s = (some d, ct2)) :
    (∃ k2, ct2.size = 2 ^ k2) ∧ tbound ct2 ∧ ct2.num_con = occupancy ct2 ∧
      occupancy ct2 < ct2.size ∧ (∃ j, j < ct2.size ∧ ct2.hdesc j = none) ∧
      ∀ (s2 : List Char) (h2 : Nat), (condesc_find ct2 s2 h2).isSome := by
  have finish2 : (∃ k2, ct2.size = 2 ^ k2) → tbound ct2 → ct2.num_con = occupancy ct2 →
      occupancy ct2 < ct2.size →
      (∃ k2, ct2.size = 2 ^ k2) ∧ tbound ct2 ∧ ct2.num_con = occupancy ct2 ∧
        occupancy ct2 < ct2.size ∧ (∃ j, j < ct2.size ∧ ct2.hdesc j = none) ∧
        ∀ (s2 : List Char) (h2 : Nat), (condesc_find ct2 s2 h2).isSome := by
    rintro ⟨k2, hk2⟩ htb2 hcnt2 hocc2
    exact ⟨⟨k2, hk2⟩, htb2, hcnt2, hocc2, exists_empty_slot hocc2,
      fun s2 h2 => condesc_find_isSome hk2 hocc2 s2 h2⟩
  rcases hstate with ⟨hsz, ⟨k, hk⟩, hempty⟩ | ⟨⟨k, hk⟩, htb, hcnt, hocc⟩
  · have hzero := condesc_init_zero ct hsz
    have hinit_sz : (condesc_init ct).size = 2 ^ k := by
      rw [hzero.1, hk]
    have h0 : (condesc_init ct).size ≠ 0 := by
      rw [hinit_sz]
      positivity
    rw [condesc_add_init ct s h0] at hadd
    have htbI : tbound (condesc_init ct) := fun i _ => hzero.2.2 i
    have hcntI : (condesc_init ct).num_con = occupancy (condesc_init ct) := by
      rw [hzero.2.1, occupancy_empty hzero.2.2]
    have hoccI : occupancy (condesc_init ct) < (condesc_init ct).size := by
      rw [occupancy_empty hzero.2.2, hinit_sz]
      positivity
    obtain ⟨hpow2, htb2, hcnt2, hocc2⟩ :=
      condesc_add_count h0 hinit_sz htbI hcntI hoccI hadd
    exact finish2 hpow2 htb2 hcnt2 hocc2
  · have h0 : ct.size ≠ 0 := by
      rw [hk]
      positivity
    obtain ⟨hpow2, htb2, hcnt2, hocc2⟩ :=
      condesc_add_count h0 hk htb hcnt hocc hadd
    exact finish2 hpow2 htb2 hcnt2 hocc2

/-- Witness for claim C9: interning "A" with capacity hint 1; the call
grows the table from 1 to 2 slots and the occupancy 1 stays strictly
below the capacity 2. -/
theorem intern_keeps_room_witness :
    (condesc_add ctHint1 ("A".toList)).1 = some (encDesc ("A".toList)) ∧
    (condesc_add ctHint1 ("A".toList)).2.num_con =
      occupancy (condesc_add ctHint1 ("A".toList)).2 ∧
    occupancy (condesc_add ctHint1 ("A".toList)).2 <
      (condesc_add ctHint1 ("A".toList)).2.size := by
  have h1 : (condesc_add ctHint1 ("A".toList)).1 = some (encDesc ("A".toList)) := by decide
  have hadd : condesc_add ctHint1 ("A".toList) =
      (some (encDesc ("A".toList)), (condesc_add ctHint1 ("A".toList)).2) := by
    rw [← h1]
  obtain ⟨_, _, hcnt2, hocc2, _, _⟩ :=
    intern_keeps_room (Or.inl ⟨rfl, ⟨0, rfl⟩, fun j => rfl⟩) hadd
  exact ⟨h1, hcnt2, hocc2⟩

/-- Claim C10: the descriptor stored by `condesc_insert` carries
`str_hash` equal to the full Jenkins hash of its string reduced modulo
`2 ^ 16` (it is held in a 16-bit `connector_hash_size` field); masking
the truncated hash with `capacity - 1` coincides with masking the full
hash whenever the power-of-two capacity is at most `2 ^ 16`, and the
two masked indices can differ for every larger capacity — concretely
they differ for the string "A" at capacity `2 ^ 17`. -/
theorem str_hash_truncated :
    (∀ (ct : ConTable) (i : Nat) (s : List Char),
      ∃ d, ((condesc_insert ct i s (connector_str_hash s)).2).hdesc i = some d ∧
        d.string = s ∧ d.str_hash = connector_str_hash d.string % 2 ^ 16) ∧
    (∀ (hash k : Nat), k ≤ 16 →
      (hash % 2 ^ 16) &&& (2 ^ k - 1) = hash &&& (2 ^ k - 1)) ∧
    (∀ k : Nat, 17 ≤ k →
      ((2 ^ 16 : Nat) % 2 ^ 16) &&& (2 ^ k - 1) ≠ (2 ^ 16 : Nat) &&& (2 ^ k - 1)) ∧
    ((connector_str_hash ("A".toList) % 2 ^ 16) &&& (2 ^ 17 - 1) ≠
      connector_str_hash ("A".toList) &&& (2 ^ 17 - 1)) := by
  refine ⟨?_, ?_, ?_, by decide⟩
  · intro ct i s
    rcases henc : calculate_connector_info (blank_condesc s (connector_str_hash s))
      with _ | dn
    · refine ⟨blank_condesc s (connector_str_hash s), ?_, rfl, rfl⟩
      simp [condesc_insert, henc]
    · obtain ⟨hstr, hhash⟩ := calc_preserves henc
      refine ⟨dn, ?_, hstr, ?_⟩
      · simp [condesc_insert, henc]
      · rw [hhash, hstr]
        rfl
  · intro hash k hk
    rw [Nat.and_pow_two_sub_one_eq_mod, Nat.and_pow_two_sub_one_eq_mod,
      Nat.mod_mod_of_dvd hash (Nat.pow_dvd_pow 2 hk)]
  · intro k hk
    rw [Nat.mod_self, Nat.zero_and, Nat.and_pow_two_sub_one_eq_mod,
      Nat.mod_eq_of_lt (Nat.pow_lt_pow_right (by omega) (by omega))]
    have := Nat.two_pow_pos 16
    omega

/-- Witness for claim C10: the stored-hash truncation and the masking
coincidence instantiated at the concrete string "AB", slot 0 of the
empty 4-slot table, and capacity `2 ^ 4`; plus the divergence instance
at capacity `2 ^ 17`. -/
theorem str_hash_truncated_witness :
    (((condesc_insert ctEmpty4 0 ("AB".toList) (connector_str_hash ("AB".toList))).2).hdesc 0).isSome = true ∧
    (connector_str_hash ("AB".toList) % 2 ^ 16) &&& (2 ^ 4 - 1) =
      connector_str_hash ("AB".toList) &&& (2 ^ 4 - 1) ∧
    ((2 ^ 16 : Nat) % 2 ^ 16) &&& (2 ^ 17 - 1) ≠ (2 ^ 16 : Nat) &&& (2 ^ 17 - 1) := by
  obtain ⟨d, hd, _, _⟩ := str_hash_truncated.1 ctEmpty4 0 ("AB".toList)
  refine ⟨?_, str_hash_truncated.2.1 (connector_str_hash ("AB".toList)) 4 (by omega),
    str_hash_truncated.2.2.1 17 (by omega)⟩
  rw [hd]
  rfl
